import Mathlib

/-!
# RC car firmware (ESP32-C3, BLE): shallow embedding of `firmware/src/main.cpp`

The firmware receives text frames `S:<steer>,T:<throttle>` on a BLE characteristic, drives two
LEDC PWM channels, publishes a battery percentage once per second and re-centres both channels
when no command arrived for more than 500 ms.

The embedding has three layers:

* binary32 (`float`) arithmetic, modelled exactly with integers: a finite binary32 value is an
  integer multiple of `2^-149`, and every operation is the exact rational result rounded to
  nearest, ties to even;
* the C string handling used by the command handler (`String::trim`, `startsWith`, `sscanf`);
* the device state with the callbacks `onConnect`, `onDisconnect`, `onWrite` and the functions
  `setup` and `loop`, each taking the values read from the clock and the ADC as arguments.

The serial trace lines and the `delay` calls have no effect on this state and are left out.
-/

namespace RcCar

/-! ## binary32 arithmetic -/

/-- Nearest natural number to `n / d`, ties going to the even neighbour. -/
def roundHalfEven (n d : Nat) : Nat :=
  if 2 * (n % d) < d then n / d
  else if d < 2 * (n % d) then n / d + 1
  else if (n / d) % 2 = 0 then n / d
  else n / d + 1

/-- Binary search for the position of the leading bit: for `0 < n < 2^(2^k)` the result is
`⌊log₂ n⌋`. -/
def floorLog2Below : Nat → Nat → Nat
  | 0, _ => 0
  | k + 1, n =>
    if 2 ^ 2 ^ k ≤ n then 2 ^ k + floorLog2Below k (n / 2 ^ 2 ^ k) else floorLog2Below k n

/-- The first `j ≥ k` with `n < 2^(2^j)`; `fuel` bounds the search. -/
def log2Levels : Nat → Nat → Nat → Nat
  | 0, k, _ => k
  | fuel + 1, k, n => if n < 2 ^ 2 ^ k then k else log2Levels fuel (k + 1) n

/-- The exponent of the leading bit of `n`, `⌊log₂ n⌋` (and `0` for `n = 0`). -/
def floorLog2 (n : Nat) : Nat := floorLog2Below (log2Levels n 0 n) n

/-- Rounds the non-negative rational `n / d`, measured in units of `2^-149`, to the nearest
binary32 value, again in units of `2^-149`.  The significand keeps 24 bits: with `e` the exponent
of the leading bit of `n / d`, the spacing of representable values is `2^(e - 23)`, and it is one
unit in the subnormal range.  The exponent range is not bounded above, so the result is the
binary32 one whenever `n / d` is below `2^128 * 2^149` (no overflow to infinity). -/
def roundUnits (n d : Nat) : Nat :=
  roundHalfEven n (d * 2 ^ (floorLog2 (n / d) - 23)) * 2 ^ (floorLog2 (n / d) - 23)

/-- A finite binary32 value `units * 2^-149`. -/
structure F32 where
  units : Int
deriving DecidableEq

namespace F32

/-- The rational number a binary32 value stands for. -/
def toRat (x : F32) : ℚ := (x.units : ℚ) / 2 ^ 149

/-- Rounds the rational `n / d` (in units of `2^-149`) to binary32; rounding is symmetric in the
sign. -/
def round (n : Int) (d : Nat) : F32 :=
  if 0 ≤ n then ⟨(roundUnits n.toNat d : Nat)⟩ else ⟨-(roundUnits (-n).toNat d : Nat)⟩

/-- Conversion `int → float`. -/
def ofInt (i : Int) : F32 := round (i * 2 ^ 149) 1

/-- The `float` literal written as the decimal fraction `n / d`, e.g. `3.3f` is `lit 33 10`. -/
def lit (n d : Nat) : F32 := round ((n : Int) * 2 ^ 149) d

/-- Single precision division `x / y` by a non-zero `y`. -/
def div (x y : F32) : F32 := round (x.units * y.units.sign * 2 ^ 149) y.units.natAbs

/-- Single precision multiplication `x * y`. -/
def mul (x y : F32) : F32 := round (x.units * y.units) (2 ^ 149)

/-- Single precision subtraction `x - y`. -/
def sub (x y : F32) : F32 := round (x.units - y.units) 1

/-- The cast `(int) x`: truncation toward zero. -/
def toInt (x : F32) : Int := Int.tdiv x.units (2 ^ 149)

/-- The cast `(uint32_t) x`: truncation toward zero, for `x` in the range of `uint32_t`. -/
def toU32 (x : F32) : Nat := (toInt x).toNat % 2 ^ 32

end F32

/-! ## Pulse width and battery conversions -/

/-- Source `usToDuty`, lines 32-34: `(uint32_t)((us / 20000.0f) * 16383)`. -/
def usToDuty (us : Int) : Nat :=
  F32.toU32 (F32.mul (F32.div (F32.ofInt us) (F32.lit 20000 1)) (F32.ofInt 16383))

/-- Source `getBatteryPercent`, line 38: `v = (raw / 4095.0f) * 3.3f / 0.32f`. -/
def batteryVoltage (raw : Int) : F32 :=
  F32.div (F32.mul (F32.div (F32.ofInt raw) (F32.lit 4095 1)) (F32.lit 33 10)) (F32.lit 32 100)

/-- Source `getBatteryPercent`, lines 39-41: `if (v < 6.0f) return 0; if (v > 8.4f) return 100;
return (int)((v - 6.0f) / 2.4f * 100);`. -/
def percentOfVoltage (v : F32) : Int :=
  if v.units < (F32.lit 6 1).units then 0
  else if (F32.lit 84 10).units < v.units then 100
  else F32.toInt (F32.mul (F32.div (F32.sub v (F32.lit 6 1)) (F32.lit 24 10)) (F32.ofInt 100))

/-- Source `getBatteryPercent`, lines 36-42; `raw` is the value returned by `analogRead`. -/
def getBatteryPercent (raw : Int) : Int := percentOfVoltage (batteryVoltage raw)

/-- The Arduino macro `constrain(x, lo, hi)`: `x < lo ? lo : (x > hi ? hi : x)`. -/
def constrain (x lo hi : Int) : Int := if x < lo then lo else if hi < x then hi else x

/-- The clamp of the specification: `max(1000, min(2000, x))`. -/
def clamp (x : Int) : Int := max 1000 (min 2000 x)

/-- The conversion of the specification, `round((us / 20000) * 16383)`, to the nearest integer. -/
def specDuty (us : Int) : Int := (2 * (us * 16383) + 20000) / (2 * 20000)

/-- Checks `usToDuty us = us * 16383 / 20000` (integer division) for the `n` pulse widths
`lo, lo + 1, ..., lo + n - 1`. -/
def checkDuty (lo : Nat) : Nat → Bool
  | 0 => true
  | n + 1 => decide (usToDuty ((lo + n : Nat) : Int) = (lo + n) * 16383 / 20000) && checkDuty lo n

/-! ## C strings -/

/-- The C function `isspace` in the C locale: space, `\t`, `\n`, `\v`, `\f`, `\r`. -/
def isSpace (c : Char) : Bool := c.toNat = 32 || (9 ≤ c.toNat && c.toNat ≤ 13)

/-- The decimal digits `0` to `9`. -/
def isDigit (c : Char) : Bool := 48 ≤ c.toNat && c.toNat ≤ 57

/-- The bytes of a `std::string` seen through `c_str()`: everything before the first NUL. -/
def cString (value : List Char) : List Char := value.takeWhile (fun c => c ≠ Char.ofNat 0)

/-- Arduino `String::trim`: drops leading and trailing white space. -/
def trim (s : List Char) : List Char :=
  ((s.dropWhile isSpace).reverse.dropWhile isSpace).reverse

/-- Arduino `String::startsWith`. -/
def startsWith (s pre : List Char) : Bool := pre.isPrefixOf s

/-- The value of a run of decimal digits. -/
def digitsValue (ds : List Char) : Nat := ds.foldl (fun a c => 10 * a + (c.toNat - 48)) 0

/-- The range of the 32-bit `int` variables `s` and `t`. -/
def IsInt32 (v : Int) : Prop := -2 ^ 31 ≤ v ∧ v < 2 ^ 31

/-- The value `%d` leaves in a 32-bit `int`.  A value in the range of `int` is stored as it is.
The handler does no range check, and for a value outside the range the C standard leaves the
conversion undefined; the model keeps the low 32 bits, two's complement. -/
def toInt32 (v : Int) : Int := (v + 2 ^ 31) % 2 ^ 32 - 2 ^ 31

/-- The optional sign of an integer: whether it is `-`, and the input after the sign. -/
def scanSign (body : List Char) : Bool × List Char :=
  match body with
  | '-' :: r => (true, r)
  | '+' :: r => (false, r)
  | _ => (false, body)

/-- The digits of an integer: the longest run of decimal digits, which must not be empty,
stored into an `int`; yields the `int` and the unread input. -/
def scanDigits (neg : Bool) (inp : List Char) : Option (Int × List Char) :=
  if inp.takeWhile isDigit = [] then none
  else
    some (toInt32 (if neg then -(digitsValue (inp.takeWhile isDigit) : Int)
        else (digitsValue (inp.takeWhile isDigit) : Int)),
      inp.dropWhile isDigit)

/-- The `%d` directive of `sscanf`: skips white space, accepts an optional sign and then the
longest non-empty run of decimal digits; yields the converted `int` and the unread input. -/
def scanInt (inp : List Char) : Option (Int × List Char) :=
  scanDigits (scanSign (inp.dropWhile isSpace)).1 (scanSign (inp.dropWhile isSpace)).2

/-- An ordinary character of a `sscanf` format: it must be the next input character. -/
def scanChar (c : Char) (inp : List Char) : Option (List Char) :=
  match inp with
  | x :: r => if x = c then some r else none
  | [] => none

/-- The call `sscanf(cmd, "S:%d,T:%d", &s, &t)`: `some (s, t)` exactly when it returns 2. -/
def sscanfCmd (inp : List Char) : Option (Int × Int) :=
  (scanChar 'S' inp).bind fun r1 =>
  (scanChar ':' r1).bind fun r2 =>
  (scanInt r2).bind fun p1 =>
  (scanChar ',' p1.2).bind fun r3 =>
  (scanChar 'T' r3).bind fun r4 =>
  (scanChar ':' r4).bind fun r5 =>
  (scanInt r5).bind fun p2 => some (p1.1, p2.1)

/-- Decimal text of an integer, the `<int>` of the specification, as `%d` prints it. -/
def renderInt (i : Int) : List Char :=
  if i < 0 then '-' :: Nat.toDigits 10 (-i).toNat else Nat.toDigits 10 i.toNat

/-- The payload `S:<s>,T:<t>` of the specification. -/
def frame (s t : Int) : List Char :=
  ['S', ':'] ++ renderInt s ++ [',', 'T', ':'] ++ renderInt t

/-- An integer token as `%d` reads it: an optional sign and at least one decimal digit. -/
def IsIntToken (l : List Char) : Prop :=
  ∃ sg ds, l = sg ++ ds ∧ (sg = [] ∨ sg = ['-'] ∨ sg = ['+']) ∧ ds ≠ [] ∧
    ∀ c ∈ ds, isDigit c = true

/-- The text is exactly a frame `S:<int>,T:<int>`. -/
def IsExactFrame (l : List Char) : Prop :=
  ∃ a b, IsIntToken a ∧ IsIntToken b ∧ l = ['S', ':'] ++ a ++ [',', 'T', ':'] ++ b

/-- The text begins with a frame `S:<int>,T:<int>` in which white space may precede each
integer; anything may follow. -/
def BeginsWithFrame (l : List Char) : Prop :=
  ∃ w1 a w2 b rest, (∀ c ∈ w1, isSpace c = true) ∧ IsIntToken a ∧
    (∀ c ∈ w2, isSpace c = true) ∧ IsIntToken b ∧
    l = ['S', ':'] ++ w1 ++ a ++ [',', 'T', ':'] ++ w2 ++ b ++ rest

/-! ## Device state and handlers -/

/-- The globals of the firmware together with the peripherals it drives. -/
structure State where
  /-- Duty register of LEDC channel 0, the steering servo. -/
  duty0 : Nat
  /-- Duty register of LEDC channel 1, the throttle. -/
  duty1 : Nat
  /-- Global `deviceConnected`. -/
  deviceConnected : Bool
  /-- Global `lastCmd`, the `millis()` value of the last accepted command. -/
  lastCmd : Nat
  /-- Static local `lastBat` of `loop`. -/
  lastBat : Nat
  /-- Value held by the battery characteristic. -/
  batValue : List Char
  /-- Number of `notify()` calls on the battery characteristic. -/
  notifyCount : Nat
  /-- Number of `analogRead` calls. -/
  adcReads : Nat
  /-- Whether `BLEDevice::startAdvertising()` has been requested. -/
  advertising : Bool
deriving DecidableEq

/-- The call `ledcWrite(channel, duty)` for the two configured channels. -/
def ledcWrite (channel duty : Nat) (st : State) : State :=
  if channel = 0 then { st with duty0 := duty }
  else if channel = 1 then { st with duty1 := duty }
  else st

/-- Subtraction of two `unsigned long` (32-bit) values. -/
def u32sub (a b : Nat) : Nat := (a % 2 ^ 32 + 2 ^ 32 - b % 2 ^ 32) % 2 ^ 32

/-- The state when `setup` starts: zero-initialised globals, arbitrary duty registers. -/
def boot (d0 d1 : Nat) : State :=
  { duty0 := d0, duty1 := d1, deviceConnected := false, lastCmd := 0, lastBat := 0,
    batValue := [], notifyCount := 0, adcReads := 0, advertising := false }

/-- Source `setup`, lines 65-96. -/
def setup (st : State) : State :=
  let st1 := ledcWrite 0 (usToDuty 1500) st
  let st2 := ledcWrite 1 (usToDuty 1500) st1
  { st2 with advertising := true }

/-- Source `ServerCallbacks::onConnect`, line 45. -/
def onConnect (st : State) : State := { st with deviceConnected := true }

/-- Source `ServerCallbacks::onDisconnect`, line 46. -/
def onDisconnect (st : State) : State :=
  { st with deviceConnected := false, advertising := true }

/-- Source `CmdCallbacks::onWrite`, lines 50-62; `value` is the characteristic value and `now`
the result of `millis()`. -/
def onWrite (value : List Char) (now : Nat) (st : State) : State :=
  let cmd := trim (cString value)
  if startsWith cmd ['S', ':'] then
    match sscanfCmd cmd with
    | some (s, t) =>
      let st1 := ledcWrite 0 (usToDuty (constrain s 1000 2000)) st
      let st2 := ledcWrite 1 (usToDuty (constrain t 1000 2000)) st1
      { st2 with lastCmd := now }
    | none => st
  else st

/-- Source `loop`, lines 99-106: the battery report.  `tBat` and `tStamp` are the two `millis()`
readings, `raw` the value `analogRead` returns. -/
def loopBattery (tBat tStamp : Nat) (raw : Int) (st : State) : State :=
  if st.deviceConnected && decide (1000 < u32sub tBat st.lastBat) then
    { st with
      batValue := renderInt (getBatteryPercent raw)
      notifyCount := st.notifyCount + 1
      adcReads := st.adcReads + 1
      lastBat := tStamp }
  else st

/-- Source `loop`, lines 108-111: the failsafe.  `tCmd` is the `millis()` reading. -/
def loopFailsafe (tCmd : Nat) (st : State) : State :=
  if 500 < u32sub tCmd st.lastCmd then
    ledcWrite 1 (usToDuty 1500) (ledcWrite 0 (usToDuty 1500) st)
  else st

/-- Source `loop`, lines 98-114: one iteration of the main loop. -/
def loop (tBat tStamp tCmd : Nat) (raw : Int) (st : State) : State :=
  loopFailsafe tCmd (loopBattery tBat tStamp raw st)

/-- What can happen to the device after `setup`. -/
inductive Event where
  | connect
  | disconnect
  | write (value : List Char) (now : Nat)
  | tick (tBat tStamp tCmd : Nat) (raw : Int)

/-- Whether an event is a write to the command characteristic. -/
def Event.isWrite : Event → Bool
  | Event.write _ _ => true
  | _ => false

/-- The effect of one event. -/
def step (st : State) : Event → State
  | Event.connect => onConnect st
  | Event.disconnect => onDisconnect st
  | Event.write value now => onWrite value now st
  | Event.tick tBat tStamp tCmd raw => loop tBat tStamp tCmd raw st

/-- The effect of a sequence of events. -/
def run (st : State) (evs : List Event) : State := evs.foldl step st

/-- Whether an event leaves a command stamped at `last` in force: no write, and a main-loop
iteration only while the unsigned clock difference is at most 500. -/
def Event.quietBefore (last : Nat) : Event → Bool
  | Event.write _ _ => false
  | Event.tick _ _ tCmd _ => decide (u32sub tCmd last ≤ 500)
  | _ => true

/-! ## The battery percent of the specification -/

/-- The pack voltage of the specification, `V = (raw / 4095) * 3.3 / ratio`, in exact
arithmetic. -/
def specVoltage (ratio : ℚ) (raw : Int) : ℚ := (raw : ℚ) / 4095 * (33 / 10) / ratio

/-- The percent of the specification: the linear interpolation of the voltage between 6.0 V
(0 %) and 8.4 V (100 %), saturating outside and cut down to an integer. -/
def specPercent (ratio : ℚ) (raw : Int) : Int :=
  if specVoltage ratio raw < 6 then 0
  else if 84 / 10 < specVoltage ratio raw then 100
  else ⌊(specVoltage ratio raw - 6) / (24 / 10) * 100⌋

/-- The percent of the specification for the ratio `num / den`, computed with integers: the
voltage is `raw * 33 * den / (40950 * num)`. -/
def specPercentInt (num den : Nat) (raw : Int) : Int :=
  if raw * 33 * den < 6 * (40950 * num) then 0
  else if 84 * (40950 * num) < 10 * (raw * 33 * den) then 100
  else (raw * 33 * den - 6 * (40950 * num)) * 1000 / (24 * (40950 * num))

/-- Checks `P` on the `2^d` numbers from `lo` on, by halving. -/
def checkTree (P : Nat → Bool) : Nat → Nat → Bool
  | 0, lo => P lo
  | d + 1, lo => checkTree P d lo && checkTree P d (lo + 2 ^ d)

/-- Where the percent of the specification for the ratio 0.32 steps between the readings `i`
and `i + 1`, `getBatteryPercent` agrees with it at both. -/
def percentStepOk (i : Nat) : Bool :=
  decide (specPercentInt 32 100 i = specPercentInt 32 100 (i + 1 : Nat)) ||
    (decide (getBatteryPercent i = specPercentInt 32 100 i) &&
      decide (getBatteryPercent (i + 1 : Nat) = specPercentInt 32 100 (i + 1 : Nat)))

/-! ## Properties of the rounding -/

theorem log2Levels_spec (fuel k n : Nat) (h : n < 2 ^ 2 ^ (k + fuel)) :
    n < 2 ^ 2 ^ log2Levels fuel k n := by
  induction fuel generalizing k with
  | zero => simpa [log2Levels] using h
  | succ f ih =>
    simp only [log2Levels]
    split_ifs with hk
    · exact hk
    · apply ih
      rwa [show k + 1 + f = k + (f + 1) by omega]

theorem floorLog2Below_spec (k n : Nat) (hn : 0 < n) (h : n < 2 ^ 2 ^ k) :
    2 ^ floorLog2Below k n ≤ n ∧ n < 2 ^ (floorLog2Below k n + 1) := by
  induction k generalizing n with
  | zero =>
    simp only [pow_zero, pow_one] at h
    have : n = 1 := by omega
    subst this
    simp [floorLog2Below]
  | succ k ih =>
    simp only [floorLog2Below]
    have hpos : 0 < 2 ^ 2 ^ k := by positivity
    split_ifs with hk
    · have hq : 0 < n / 2 ^ 2 ^ k := Nat.div_pos hk hpos
      have hsq : 2 ^ 2 ^ (k + 1) = 2 ^ 2 ^ k * 2 ^ 2 ^ k := by
        rw [← pow_add]
        congr 1
        ring
      have hlt : n / 2 ^ 2 ^ k < 2 ^ 2 ^ k := by
        rw [Nat.div_lt_iff_lt_mul hpos]
        omega
      obtain ⟨h1, h2⟩ := ih _ hq hlt
      constructor
      · calc 2 ^ (2 ^ k + floorLog2Below k (n / 2 ^ 2 ^ k))
            = 2 ^ 2 ^ k * 2 ^ floorLog2Below k (n / 2 ^ 2 ^ k) := pow_add _ _ _
          _ ≤ 2 ^ 2 ^ k * (n / 2 ^ 2 ^ k) := Nat.mul_le_mul_left _ h1
          _ ≤ n := Nat.mul_div_le n _
      · calc n < 2 ^ 2 ^ k * (n / 2 ^ 2 ^ k + 1) := Nat.lt_mul_div_succ n hpos
          _ ≤ 2 ^ 2 ^ k * 2 ^ (floorLog2Below k (n / 2 ^ 2 ^ k) + 1) :=
              Nat.mul_le_mul_left _ h2
          _ = 2 ^ (2 ^ k + floorLog2Below k (n / 2 ^ 2 ^ k) + 1) := by
              rw [← pow_add, add_assoc]
    · exact ih n hn (not_le.mp hk)

theorem floorLog2_spec (n : Nat) (hn : 0 < n) :
    2 ^ floorLog2 n ≤ n ∧ n < 2 ^ (floorLog2 n + 1) := by
  apply floorLog2Below_spec _ _ hn
  apply log2Levels_spec
  calc n < 2 ^ n := Nat.lt_two_pow n
    _ ≤ 2 ^ 2 ^ (0 + n) := by
        apply Nat.pow_le_pow_right (by norm_num)
        rw [zero_add]
        exact (Nat.lt_two_pow n).le

theorem floorLog2_eq_log (n : Nat) : floorLog2 n = Nat.log 2 n := by
  rcases Nat.eq_zero_or_pos n with rfl | hn
  · simp [floorLog2, log2Levels, floorLog2Below]
  · obtain ⟨h1, h2⟩ := floorLog2_spec n hn
    exact (Nat.log_eq_of_pow_le_of_lt_pow h1 h2).symm

theorem floorLog2_mono {m n : Nat} (h : m ≤ n) : floorLog2 m ≤ floorLog2 n := by
  rw [floorLog2_eq_log, floorLog2_eq_log]
  exact Nat.log_mono_right h

theorem lt_pow_floorLog2 (n : Nat) : n < 2 ^ (floorLog2 n + 1) := by
  rcases Nat.eq_zero_or_pos n with rfl | hn
  · positivity
  · exact (floorLog2_spec n hn).2

theorem roundHalfEven_bounds (n d : Nat) :
    n / d ≤ roundHalfEven n d ∧ roundHalfEven n d ≤ n / d + 1 := by
  unfold roundHalfEven
  split_ifs <;> omega

theorem roundHalfEven_mul (m d : Nat) (hd : 0 < d) : roundHalfEven (m * d) d = m := by
  unfold roundHalfEven
  have h1 : m * d % d = 0 := Nat.mul_mod_left m d
  have h2 : m * d / d = m := Nat.mul_div_cancel m hd
  rw [h1, h2]
  simp [hd]

theorem roundHalfEven_mono {n1 n2 : Nat} (d : Nat) (h : n1 ≤ n2) :
    roundHalfEven n1 d ≤ roundHalfEven n2 d := by
  have hq : n1 / d ≤ n2 / d := Nat.div_le_div_right h
  rcases Nat.lt_or_ge (n1 / d) (n2 / d) with hlt | hge
  · have a := (roundHalfEven_bounds n1 d).2
    have b := (roundHalfEven_bounds n2 d).1
    omega
  · have heq : n1 / d = n2 / d := le_antisymm hq hge
    have e1 := Nat.div_add_mod n1 d
    have e2 := Nat.div_add_mod n2 d
    rw [heq] at e1
    have hr : n1 % d ≤ n2 % d := by omega
    unfold roundHalfEven
    rw [heq]
    split_ifs <;> omega

theorem roundUnits_mono {n1 n2 : Nat} (d : Nat) (hd : 0 < d) (h : n1 ≤ n2) :
    roundUnits n1 d ≤ roundUnits n2 d := by
  unfold roundUnits
  have hq : n1 / d ≤ n2 / d := Nat.div_le_div_right h
  have hl : floorLog2 (n1 / d) ≤ floorLog2 (n2 / d) := floorLog2_mono hq
  rcases Nat.lt_or_ge (floorLog2 (n1 / d) - 23) (floorLog2 (n2 / d) - 23) with hlt | hge
  · -- the results lie in different binades
    set e1 := floorLog2 (n1 / d) - 23 with he1
    set e2 := floorLog2 (n2 / d) - 23 with he2
    have hL2 : floorLog2 (n2 / d) = e2 + 23 := by omega
    have hq2pos : 0 < n2 / d := by
      rcases Nat.eq_zero_or_pos (n2 / d) with h0 | h0
      · rw [h0] at hL2
        simp [floorLog2, log2Levels, floorLog2Below] at hL2
      · exact h0
    have hlow : 2 ^ (e2 + 23) ≤ n2 / d := by
      have := (floorLog2_spec _ hq2pos).1
      rwa [hL2] at this
    have hn2 : 2 ^ 23 * (d * 2 ^ e2) ≤ n2 := by
      have := (Nat.le_div_iff_mul_le hd).1 hlow
      calc 2 ^ 23 * (d * 2 ^ e2) = 2 ^ (e2 + 23) * d := by ring
        _ ≤ n2 := this
    have hpos2 : 0 < d * 2 ^ e2 := by positivity
    have hr2 : 2 ^ 23 ≤ roundHalfEven n2 (d * 2 ^ e2) := by
      have := roundHalfEven_mono (d * 2 ^ e2) hn2
      rwa [roundHalfEven_mul _ _ hpos2] at this
    have hup : n1 / d < 2 ^ (e1 + 24) := by
      have := lt_pow_floorLog2 (n1 / d)
      have hle : floorLog2 (n1 / d) + 1 ≤ e1 + 24 := by omega
      exact lt_of_lt_of_le this (Nat.pow_le_pow_right (by norm_num) hle)
    have hn1 : n1 ≤ 2 ^ 24 * (d * 2 ^ e1) := by
      have := (Nat.div_lt_iff_lt_mul hd).1 hup
      calc n1 ≤ 2 ^ (e1 + 24) * d := this.le
        _ = 2 ^ 24 * (d * 2 ^ e1) := by ring
    have hpos1 : 0 < d * 2 ^ e1 := by positivity
    have hr1 : roundHalfEven n1 (d * 2 ^ e1) ≤ 2 ^ 24 := by
      have := roundHalfEven_mono (d * 2 ^ e1) hn1
      rwa [roundHalfEven_mul _ _ hpos1] at this
    calc roundHalfEven n1 (d * 2 ^ e1) * 2 ^ e1 ≤ 2 ^ 24 * 2 ^ e1 :=
          Nat.mul_le_mul_right _ hr1
      _ = 2 ^ 23 * 2 ^ (e1 + 1) := by ring
      _ ≤ 2 ^ 23 * 2 ^ e2 :=
          Nat.mul_le_mul_left _ (Nat.pow_le_pow_right (by norm_num) hlt)
      _ ≤ roundHalfEven n2 (d * 2 ^ e2) * 2 ^ e2 := Nat.mul_le_mul_right _ hr2
  · have heq : floorLog2 (n1 / d) - 23 = floorLog2 (n2 / d) - 23 := by omega
    rw [heq]
    exact Nat.mul_le_mul_right _ (roundHalfEven_mono _ h)

theorem F32.round_mono {n1 n2 : Int} (d : Nat) (hd : 0 < d) (h : n1 ≤ n2) :
    (F32.round n1 d).units ≤ (F32.round n2 d).units := by
  unfold F32.round
  split_ifs with h1 h2 h2
  · simp only
    exact_mod_cast roundUnits_mono d hd (Int.toNat_le_toNat h)
  · omega
  · simp only
    have : (0 : Int) ≤ (roundUnits (-n1).toNat d : Nat) := Int.natCast_nonneg _
    have : (0 : Int) ≤ (roundUnits n2.toNat d : Nat) := Int.natCast_nonneg _
    omega
  · simp only
    have : roundUnits (-n2).toNat d ≤ roundUnits (-n1).toNat d :=
      roundUnits_mono d hd (Int.toNat_le_toNat (by omega))
    omega

theorem F32.ofInt_mono {i j : Int} (h : i ≤ j) : (F32.ofInt i).units ≤ (F32.ofInt j).units :=
  F32.round_mono 1 (by norm_num) (mul_le_mul_of_nonneg_right h (by positivity))

theorem F32.div_mono {x y : F32} (c : F32) (hc : 0 < c.units) (h : x.units ≤ y.units) :
    (F32.div x c).units ≤ (F32.div y c).units := by
  unfold F32.div
  rw [Int.sign_eq_one_of_pos hc]
  apply F32.round_mono _ (Int.natAbs_pos.2 hc.ne')
  simp only [mul_one]
  exact mul_le_mul_of_nonneg_right h (by positivity)

theorem F32.mul_mono {x y : F32} (c : F32) (hc : 0 ≤ c.units) (h : x.units ≤ y.units) :
    (F32.mul x c).units ≤ (F32.mul y c).units :=
  F32.round_mono _ (by positivity) (mul_le_mul_of_nonneg_right h hc)

theorem F32.sub_mono {x y : F32} (c : F32) (h : x.units ≤ y.units) :
    (F32.sub x c).units ≤ (F32.sub y c).units :=
  F32.round_mono 1 (by norm_num) (by omega)

theorem F32.toInt_mono {x y : F32} (hx : 0 ≤ x.units) (h : x.units ≤ y.units) :
    F32.toInt x ≤ F32.toInt y := by
  unfold F32.toInt
  rw [Int.tdiv_eq_ediv hx (by positivity), Int.tdiv_eq_ediv (hx.trans h) (by positivity)]
  exact Int.ediv_le_ediv (by positivity) h

theorem F32.units_lt_of_toRat_lt (x : F32) (k : Int) (h : x.toRat < k) :
    x.units < k * 2 ^ 149 := by
  unfold F32.toRat at h
  have hP : (0 : ℚ) < 2 ^ 149 := by positivity
  rw [div_lt_iff₀ hP] at h
  exact_mod_cast h

theorem F32.lt_units_of_lt_toRat (x : F32) (K : Int) (a b : Nat) (hb : 0 < b)
    (hK : K * b ≤ a * 2 ^ 149) (h : (a : ℚ) / b < x.toRat) : K < x.units := by
  unfold F32.toRat at h
  have hP : (0 : ℚ) < 2 ^ 149 := by positivity
  have hb' : (0 : ℚ) < b := by exact_mod_cast hb
  rw [div_lt_div_iff₀ hb' hP] at h
  have hK' : (K : ℚ) * b ≤ a * 2 ^ 149 := by exact_mod_cast hK
  have h1 : (K : ℚ) * b < x.units * b := lt_of_le_of_lt hK' h
  have h2 := lt_of_mul_lt_mul_right h1 hb'.le
  exact_mod_cast h2

/-- The interpolation branch of `percentOfVoltage` is monotone in the voltage. -/
theorem interpolate_mono {x y : F32} (h : x.units ≤ y.units) :
    (F32.mul (F32.div (F32.sub x (F32.lit 6 1)) (F32.lit 24 10)) (F32.ofInt 100)).units ≤
      (F32.mul (F32.div (F32.sub y (F32.lit 6 1)) (F32.lit 24 10)) (F32.ofInt 100)).units :=
  F32.mul_mono _ (by decide!) (F32.div_mono _ (by decide!) (F32.sub_mono _ h))

theorem percentOfVoltage_mid {v : F32} (h1 : (F32.lit 6 1).units ≤ v.units)
    (h2 : v.units ≤ (F32.lit 84 10).units) :
    0 ≤ F32.toInt (F32.mul (F32.div (F32.sub v (F32.lit 6 1)) (F32.lit 24 10)) (F32.ofInt 100)) ∧
    F32.toInt (F32.mul (F32.div (F32.sub v (F32.lit 6 1)) (F32.lit 24 10)) (F32.ofInt 100))
      ≤ 99 := by
  have lo := interpolate_mono h1
  have hi := interpolate_mono h2
  have lo0 : (0 : Int) ≤ (F32.mul (F32.div (F32.sub (F32.lit 6 1) (F32.lit 6 1)) (F32.lit 24 10))
      (F32.ofInt 100)).units := by decide!
  have e0 : F32.toInt (F32.mul (F32.div (F32.sub (F32.lit 6 1) (F32.lit 6 1)) (F32.lit 24 10))
      (F32.ofInt 100)) = 0 := by decide!
  have e1 : F32.toInt (F32.mul (F32.div (F32.sub (F32.lit 84 10) (F32.lit 6 1)) (F32.lit 24 10))
      (F32.ofInt 100)) = 99 := by decide!
  constructor
  · rw [← e0]
    exact F32.toInt_mono lo0 lo
  · rw [← e1]
    exact F32.toInt_mono (lo0.trans lo) hi

theorem percentOfVoltage_range (v : F32) :
    0 ≤ percentOfVoltage v ∧ percentOfVoltage v ≤ 100 := by
  unfold percentOfVoltage
  split_ifs with h1 h2
  · omega
  · omega
  · have := percentOfVoltage_mid (not_lt.1 h1) (not_lt.1 h2)
    omega

theorem percentOfVoltage_mono {x y : F32} (h : x.units ≤ y.units) :
    percentOfVoltage x ≤ percentOfVoltage y := by
  have ry := percentOfVoltage_range y
  have rx := percentOfVoltage_range x
  by_cases hx1 : x.units < (F32.lit 6 1).units
  · have : percentOfVoltage x = 0 := by simp [percentOfVoltage, hx1]
    omega
  · have hy1 : ¬ y.units < (F32.lit 6 1).units := by omega
    by_cases hy2 : (F32.lit 84 10).units < y.units
    · have : percentOfVoltage y = 100 := by simp [percentOfVoltage, hy1, hy2]
      omega
    · have hx2 : ¬ (F32.lit 84 10).units < x.units := by omega
      simp only [percentOfVoltage, hx1, hx2, hy1, hy2, if_false]
      have lo0 : (0 : Int) ≤ (F32.mul (F32.div (F32.sub (F32.lit 6 1) (F32.lit 6 1))
          (F32.lit 24 10)) (F32.ofInt 100)).units := by decide!
      exact F32.toInt_mono (lo0.trans (interpolate_mono (not_lt.1 hx1))) (interpolate_mono h)

theorem batteryVoltage_mono {r1 r2 : Int} (h : r1 ≤ r2) :
    (batteryVoltage r1).units ≤ (batteryVoltage r2).units :=
  F32.div_mono _ (by decide!) (F32.mul_mono _ (by decide!)
    (F32.div_mono _ (by decide!) (F32.ofInt_mono h)))

theorem checkDuty_sound (lo n : Nat) (h : checkDuty lo n = true) (k : Nat) (hk : k < n) :
    usToDuty ((lo + k : Nat) : Int) = (lo + k) * 16383 / 20000 := by
  induction n with
  | zero => omega
  | succ n ih =>
    simp only [checkDuty, Bool.and_eq_true, decide_eq_true_eq] at h
    rcases Nat.lt_succ_iff_lt_or_eq.1 hk with hlt | heq
    · exact ih h.2 hlt
    · rw [heq]
      exact h.1

theorem checkDuty_1000 : checkDuty 1000 100 = true := by decide!
theorem checkDuty_1100 : checkDuty 1100 100 = true := by decide!
theorem checkDuty_1200 : checkDuty 1200 100 = true := by decide!
theorem checkDuty_1300 : checkDuty 1300 100 = true := by decide!
theorem checkDuty_1400 : checkDuty 1400 100 = true := by decide!
theorem checkDuty_1500 : checkDuty 1500 100 = true := by decide!
theorem checkDuty_1600 : checkDuty 1600 100 = true := by decide!
theorem checkDuty_1700 : checkDuty 1700 100 = true := by decide!
theorem checkDuty_1800 : checkDuty 1800 100 = true := by decide!
theorem checkDuty_1900 : checkDuty 1900 101 = true := by decide!

theorem usToDuty_floor (us : Nat) (h1 : 1000 ≤ us) (h2 : us ≤ 2000) :
    usToDuty (us : Int) = us * 16383 / 20000 := by
  have key : ∀ lo n, checkDuty lo n = true → lo ≤ us → us < lo + n →
      usToDuty (us : Int) = us * 16383 / 20000 := by
    intro lo n hc hlo hhi
    have := checkDuty_sound lo n hc (us - lo) (by omega)
    rwa [show lo + (us - lo) = us by omega] at this
  by_cases c1 : us < 1100
  · exact key _ _ checkDuty_1000 (by omega) (by omega)
  by_cases c2 : us < 1200
  · exact key _ _ checkDuty_1100 (by omega) (by omega)
  by_cases c3 : us < 1300
  · exact key _ _ checkDuty_1200 (by omega) (by omega)
  by_cases c4 : us < 1400
  · exact key _ _ checkDuty_1300 (by omega) (by omega)
  by_cases c5 : us < 1500
  · exact key _ _ checkDuty_1400 (by omega) (by omega)
  by_cases c6 : us < 1600
  · exact key _ _ checkDuty_1500 (by omega) (by omega)
  by_cases c7 : us < 1700
  · exact key _ _ checkDuty_1600 (by omega) (by omega)
  by_cases c8 : us < 1800
  · exact key _ _ checkDuty_1700 (by omega) (by omega)
  by_cases c9 : us < 1900
  · exact key _ _ checkDuty_1800 (by omega) (by omega)
  · exact key _ _ checkDuty_1900 (by omega) (by omega)

/-! ## Properties of the string functions -/

theorem digitChar_spec (k : Nat) (hk : k < 10) :
    isDigit (Nat.digitChar k) = true ∧ (Nat.digitChar k).toNat - 48 = k := by
  interval_cases k <;> decide

theorem digitsValue_append (ds : List Char) (d : Char) :
    digitsValue (ds ++ [d]) = 10 * digitsValue ds + (d.toNat - 48) := by
  simp [digitsValue, List.foldl_append]

theorem toDigitsCore_spec (fuel n : Nat) (acc : List Char) (h : n < fuel) :
    ∃ ds, Nat.toDigitsCore 10 fuel n acc = ds ++ acc ∧ ds ≠ [] ∧
      (∀ c ∈ ds, isDigit c = true) ∧ digitsValue ds = n := by
  induction fuel generalizing n acc with
  | zero => omega
  | succ f ih =>
    have hd := digitChar_spec (n % 10) (Nat.mod_lt _ (by norm_num))
    simp only [Nat.toDigitsCore]
    split_ifs with h0
    · refine ⟨[Nat.digitChar (n % 10)], rfl, by simp, ?_, ?_⟩
      · intro c hc
        rw [List.mem_singleton] at hc
        rw [hc]
        exact hd.1
      · simp only [digitsValue, List.foldl_cons, List.foldl_nil]
        omega
    · obtain ⟨ds, e, _, hall, hv⟩ := ih (n / 10) (Nat.digitChar (n % 10) :: acc) (by omega)
      refine ⟨ds ++ [Nat.digitChar (n % 10)], ?_, by simp, ?_, ?_⟩
      · rw [e]
        simp
      · intro c hc
        rcases List.mem_append.1 hc with hc | hc
        · exact hall c hc
        · rw [List.mem_singleton] at hc
          rw [hc]
          exact hd.1
      · rw [digitsValue_append, hv]
        omega

theorem toDigits_spec (n : Nat) :
    Nat.toDigits 10 n ≠ [] ∧ (∀ c ∈ Nat.toDigits 10 n, isDigit c = true) ∧
      digitsValue (Nat.toDigits 10 n) = n := by
  obtain ⟨ds, e, hne, hall, hv⟩ := toDigitsCore_spec (n + 1) n [] (by omega)
  rw [List.append_nil] at e
  unfold Nat.toDigits
  rw [e]
  exact ⟨hne, hall, hv⟩

theorem isSpace_of_isDigit {c : Char} (h : isDigit c = true) : isSpace c = false := by
  simp only [isDigit, Bool.and_eq_true, decide_eq_true_eq] at h
  simp only [isSpace, Bool.or_eq_false_iff, decide_eq_false_iff_not, Bool.and_eq_false_imp,
    decide_eq_true_eq]
  omega

theorem dropWhile_of_head {p : Char → Bool} (c : Char) (l : List Char) (h : p c = false) :
    (c :: l).dropWhile p = c :: l := by
  simp [List.dropWhile_cons, h]

theorem scanSign_digit (d : Char) (l : List Char) (hd : isDigit d = true) :
    scanSign (d :: l) = (false, d :: l) := by
  have h1 : d ≠ '-' := by
    rintro rfl
    simp [isDigit] at hd
  have h2 : d ≠ '+' := by
    rintro rfl
    simp [isDigit] at hd
  unfold scanSign
  split
  · rename_i heq
    exact absurd (List.cons.inj heq).1 h1
  · rename_i heq
    exact absurd (List.cons.inj heq).1 h2
  · rfl

theorem scanDigits_run (neg : Bool) (ds rest : List Char) (hne : ds ≠ [])
    (hall : ∀ c ∈ ds, isDigit c = true) (hrest : ∀ c ∈ rest.head?, isDigit c = false) :
    scanDigits neg (ds ++ rest) =
      some (toInt32 (if neg then -(digitsValue ds : Int) else (digitsValue ds : Int)), rest) := by
  have htake : (ds ++ rest).takeWhile isDigit = ds := by
    rw [List.takeWhile_append_of_pos hall]
    cases rest with
    | nil => simp
    | cons r rs =>
      have : isDigit r = false := hrest r (by simp)
      simp [List.takeWhile_cons, this]
  have hdrop : (ds ++ rest).dropWhile isDigit = rest := by
    rw [List.dropWhile_append_of_pos hall]
    cases rest with
    | nil => simp
    | cons r rs =>
      have : isDigit r = false := hrest r (by simp)
      simp [List.dropWhile_cons, this]
  unfold scanDigits
  rw [htake, hdrop, if_neg hne]

/-- Reading an integer token: `%d` consumes exactly the token when no digit follows it. -/
theorem scanInt_token (neg : Bool) (ds rest : List Char) (hne : ds ≠ [])
    (hall : ∀ c ∈ ds, isDigit c = true) (hrest : ∀ c ∈ rest.head?, isDigit c = false) :
    scanInt ((if neg then ['-'] else []) ++ ds ++ rest) =
      some (toInt32 (if neg then -(digitsValue ds : Int) else (digitsValue ds : Int)), rest) := by
  obtain ⟨d, ds', rfl⟩ := List.exists_cons_of_ne_nil hne
  have hd : isDigit d = true := hall d (List.mem_cons_self _ _)
  cases neg with
  | true =>
    have hs : isSpace '-' = false := by decide
    have e : scanSign ('-' :: d :: (ds' ++ rest)) = (true, d :: (ds' ++ rest)) := rfl
    simp only [scanInt, if_true, List.cons_append, List.nil_append]
    rw [dropWhile_of_head _ _ hs, e]
    exact scanDigits_run true (d :: ds') rest hne hall hrest
  | false =>
    have hs : isSpace d = false := isSpace_of_isDigit hd
    simp only [scanInt, Bool.false_eq_true, if_false, List.nil_append, List.cons_append]
    rw [dropWhile_of_head _ _ hs, scanSign_digit _ _ hd]
    exact scanDigits_run false (d :: ds') rest hne hall hrest

theorem renderInt_token (i : Int) :
    ∃ ds, renderInt i = (if i < 0 then ['-'] else []) ++ ds ∧ ds ≠ [] ∧
      (∀ c ∈ ds, isDigit c = true) ∧
      (if i < 0 then -(digitsValue ds : Int) else (digitsValue ds : Int)) = i := by
  unfold renderInt
  by_cases h : i < 0
  · obtain ⟨h1, h2, h3⟩ := toDigits_spec (-i).toNat
    refine ⟨_, by simp [h], h1, h2, ?_⟩
    simp only [h, if_true, h3]
    omega
  · obtain ⟨h1, h2, h3⟩ := toDigits_spec i.toNat
    refine ⟨_, by simp [h], h1, h2, ?_⟩
    simp only [h, if_false, h3]
    omega

theorem scanInt_renderInt (i : Int) (rest : List Char)
    (hrest : ∀ c ∈ rest.head?, isDigit c = false) :
    scanInt (renderInt i ++ rest) = some (toInt32 i, rest) := by
  obtain ⟨ds, e, hne, hall, hv⟩ := renderInt_token i
  rw [e]
  have := scanInt_token (decide (i < 0)) ds rest hne hall hrest
  simp only [decide_eq_true_eq] at this
  rw [this, hv]

theorem scanChar_self (c : Char) (r : List Char) : scanChar c (c :: r) = some r := by
  simp [scanChar]

theorem frame_eq (s t : Int) :
    frame s t = 'S' :: ':' :: (renderInt s ++ ',' :: 'T' :: ':' :: renderInt t) := by
  simp [frame]

theorem sscanfCmd_frame (s t : Int) : sscanfCmd (frame s t) = some (toInt32 s, toInt32 t) := by
  have h1 : scanInt (renderInt s ++ ',' :: 'T' :: ':' :: renderInt t) =
      some (toInt32 s, ',' :: 'T' :: ':' :: renderInt t) :=
    scanInt_renderInt s _ (by simp [isDigit])
  have h2 : scanInt (renderInt t) = some (toInt32 t, []) := by
    have := scanInt_renderInt t [] (by simp)
    rwa [List.append_nil] at this
  simp only [sscanfCmd, frame_eq, scanChar_self, Option.some_bind, h1, h2]

theorem renderInt_chars (i : Int) : ∀ c ∈ renderInt i, 33 ≤ c.toNat := by
  obtain ⟨ds, e, _, hall, _⟩ := renderInt_token i
  intro c hc
  rw [e] at hc
  rcases List.mem_append.1 hc with hc | hc
  · split_ifs at hc
    · rw [List.mem_singleton] at hc
      rw [hc]
      decide
    · simp at hc
  · have := hall c hc
    simp only [isDigit, Bool.and_eq_true, decide_eq_true_eq] at this
    omega

theorem frame_chars (s t : Int) : ∀ c ∈ frame s t, 33 ≤ c.toNat := by
  intro c hc
  rw [frame_eq] at hc
  simp only [List.mem_cons, List.mem_append] at hc
  rcases hc with rfl | rfl | hc | rfl | rfl | rfl | hc
  · decide
  · decide
  · exact renderInt_chars s c hc
  · decide
  · decide
  · decide
  · exact renderInt_chars t c hc

theorem dropWhile_of_all_false {p : Char → Bool} (l : List Char)
    (h : ∀ c ∈ l, p c = false) : l.dropWhile p = l := by
  cases l with
  | nil => rfl
  | cons c l => exact dropWhile_of_head c l (h c (List.mem_cons_self _ _))

theorem trim_of_no_space (l : List Char) (h : ∀ c ∈ l, isSpace c = false) : trim l = l := by
  unfold trim
  rw [dropWhile_of_all_false l h, dropWhile_of_all_false l.reverse, List.reverse_reverse]
  intro c hc
  exact h c (List.mem_reverse.1 hc)

theorem cString_of_no_nul (l : List Char) (h : ∀ c ∈ l, c.toNat ≠ 0) : cString l = l := by
  unfold cString
  rw [List.takeWhile_eq_self_iff]
  intro c hc
  have := h c hc
  simp only [ne_eq, decide_not, Bool.not_eq_true', decide_eq_false_iff_not]
  rintro rfl
  exact this (by decide)

theorem isSpace_of_printable {c : Char} (h : 33 ≤ c.toNat) : isSpace c = false := by
  simp only [isSpace, Bool.or_eq_false_iff, decide_eq_false_iff_not, Bool.and_eq_false_imp,
    decide_eq_true_eq]
  omega

theorem command_of_frame (s t : Int) : trim (cString (frame s t)) = frame s t := by
  rw [cString_of_no_nul, trim_of_no_space]
  · intro c hc
    exact isSpace_of_printable (frame_chars s t c hc)
  · intro c hc
    have := frame_chars s t c hc
    omega

theorem toInt32_of_range {v : Int} (h : IsInt32 v) : toInt32 v = v := by
  unfold IsInt32 at h
  unfold toInt32
  norm_num at h ⊢
  omega

theorem constrain_eq_clamp (x : Int) : constrain x 1000 2000 = clamp x := by
  unfold constrain clamp
  split_ifs <;> omega

theorem constrain_toInt32 {x : Int} (h : IsInt32 x) :
    constrain (toInt32 x) 1000 2000 = clamp x := by
  rw [toInt32_of_range h, constrain_eq_clamp]

theorem clamp_range (x : Int) : 1000 ≤ clamp x ∧ clamp x ≤ 2000 := by
  unfold clamp
  omega

/-- The effect of a frame `S:<s>,T:<t>` on the state. -/
theorem onWrite_frame (s t : Int) (now : Nat) (st : State) :
    onWrite (frame s t) now st =
      { st with duty0 := usToDuty (constrain (toInt32 s) 1000 2000),
                duty1 := usToDuty (constrain (toInt32 t) 1000 2000), lastCmd := now } := by
  have hs : startsWith (frame s t) ['S', ':'] = true := by
    simp [startsWith, frame_eq, List.isPrefixOf]
  simp only [onWrite, command_of_frame, hs, if_true, sscanfCmd_frame, ledcWrite]
  simp

/-! ### What `sscanf` accepts -/

theorem scanChar_some {c : Char} {inp r : List Char} (h : scanChar c inp = some r) :
    inp = c :: r := by
  unfold scanChar at h
  cases inp with
  | nil => simp at h
  | cons x xs =>
    simp only at h
    split_ifs at h with hx
    rw [hx, Option.some.inj h]

theorem scanSign_spec (body : List Char) :
    ∃ sg, (sg = [] ∨ sg = ['-'] ∨ sg = ['+']) ∧ body = sg ++ (scanSign body).2 := by
  unfold scanSign
  split
  · exact ⟨['-'], by simp, rfl⟩
  · exact ⟨['+'], by simp, rfl⟩
  · exact ⟨[], by simp, rfl⟩

theorem scanDigits_some {neg : Bool} {inp : List Char} {p : Int × List Char}
    (h : scanDigits neg inp = some p) :
    ∃ ds, ds ≠ [] ∧ (∀ c ∈ ds, isDigit c = true) ∧ inp = ds ++ p.2 := by
  unfold scanDigits at h
  by_cases h0 : inp.takeWhile isDigit = []
  · rw [if_pos h0] at h
    exact absurd h (by simp)
  rw [if_neg h0] at h
  have hp := Option.some.inj h
  refine ⟨inp.takeWhile isDigit, h0, ?_, ?_⟩
  · intro c hc
    exact List.mem_takeWhile_imp hc
  · rw [← hp]
    exact (List.takeWhile_append_dropWhile isDigit inp).symm

theorem scanInt_some {inp : List Char} {p : Int × List Char} (h : scanInt inp = some p) :
    ∃ w a, (∀ c ∈ w, isSpace c = true) ∧ IsIntToken a ∧ inp = w ++ a ++ p.2 := by
  unfold scanInt at h
  obtain ⟨ds, hne, hall, hds⟩ := scanDigits_some h
  obtain ⟨sg, hsg, hbody⟩ := scanSign_spec (inp.dropWhile isSpace)
  refine ⟨inp.takeWhile isSpace, sg ++ ds, ?_, ⟨sg, ds, rfl, hsg, hne, hall⟩, ?_⟩
  · intro c hc
    exact List.mem_takeWhile_imp hc
  · calc inp = inp.takeWhile isSpace ++ inp.dropWhile isSpace :=
          (List.takeWhile_append_dropWhile isSpace inp).symm
      _ = inp.takeWhile isSpace ++ (sg ++ (ds ++ p.2)) := by rw [← hds, ← hbody]
      _ = inp.takeWhile isSpace ++ (sg ++ ds) ++ p.2 := by simp

theorem sscanfCmd_some {l : List Char} {p : Int × Int} (h : sscanfCmd l = some p) :
    BeginsWithFrame l := by
  unfold sscanfCmd at h
  obtain ⟨r1, e1, h⟩ := Option.bind_eq_some.1 h
  obtain ⟨r2, e2, h⟩ := Option.bind_eq_some.1 h
  obtain ⟨p1, e3, h⟩ := Option.bind_eq_some.1 h
  obtain ⟨r3, e4, h⟩ := Option.bind_eq_some.1 h
  obtain ⟨r4, e5, h⟩ := Option.bind_eq_some.1 h
  obtain ⟨r5, e6, h⟩ := Option.bind_eq_some.1 h
  obtain ⟨p2, e7, _⟩ := Option.bind_eq_some.1 h
  obtain ⟨w1, a, hw1, ha, i1⟩ := scanInt_some e3
  obtain ⟨w2, b, hw2, hb, i2⟩ := scanInt_some e7
  refine ⟨w1, a, w2, b, p2.2, hw1, ha, hw2, hb, ?_⟩
  rw [scanChar_some e1, scanChar_some e2, i1, scanChar_some e4, scanChar_some e5,
    scanChar_some e6, i2]
  simp

theorem scanDigits_accepts (neg : Bool) (ds rest : List Char) (hne : ds ≠ [])
    (hall : ∀ c ∈ ds, isDigit c = true) : ∃ p, scanDigits neg (ds ++ rest) = some p := by
  have htake : (ds ++ rest).takeWhile isDigit ≠ [] := by
    rw [List.takeWhile_append_of_pos hall]
    simp [hne]
  unfold scanDigits
  rw [if_neg htake]
  exact ⟨_, rfl⟩

theorem scanSign_token {sg ds : List Char} (hsg : sg = [] ∨ sg = ['-'] ∨ sg = ['+'])
    (hne : ds ≠ []) (hall : ∀ c ∈ ds, isDigit c = true) (rest : List Char) :
    (scanSign (sg ++ ds ++ rest)).2 = ds ++ rest ∧
      ∀ c ∈ (sg ++ ds ++ rest).head?, isSpace c = false := by
  obtain ⟨d, ds', rfl⟩ := List.exists_cons_of_ne_nil hne
  have hd : isDigit d = true := hall d (List.mem_cons_self _ _)
  rcases hsg with rfl | rfl | rfl
  · constructor
    · simp only [List.nil_append, List.cons_append]
      rw [scanSign_digit _ _ hd]
    · intro c hc
      simp only [List.nil_append, List.cons_append, List.head?_cons, Option.mem_def,
        Option.some.injEq] at hc
      rw [← hc]
      exact isSpace_of_isDigit hd
  · constructor
    · rfl
    · intro c hc
      simp only [List.cons_append, List.head?_cons, Option.mem_def, Option.some.injEq] at hc
      rw [← hc]
      decide
  · constructor
    · rfl
    · intro c hc
      simp only [List.cons_append, List.head?_cons, Option.mem_def, Option.some.injEq] at hc
      rw [← hc]
      decide

theorem dropWhile_space_run (w l : List Char) (hw : ∀ c ∈ w, isSpace c = true)
    (hl : ∀ c ∈ l.head?, isSpace c = false) : (w ++ l).dropWhile isSpace = l := by
  rw [List.dropWhile_append_of_pos hw]
  cases l with
  | nil => rfl
  | cons c l => exact dropWhile_of_head c l (hl c (by simp))

/-- The `%d` directive accepts every integer token, also after white space; when no digit
follows the token, exactly the token is consumed. -/
theorem scanInt_accepts (w a rest : List Char) (hw : ∀ c ∈ w, isSpace c = true)
    (ha : IsIntToken a) :
    (∃ p, scanInt (w ++ a ++ rest) = some p) ∧
      ((∀ c ∈ rest.head?, isDigit c = false) → ∃ v, scanInt (w ++ a ++ rest) = some (v, rest)) := by
  obtain ⟨sg, ds, rfl, hsg, hne, hall⟩ := ha
  obtain ⟨h2, hsp⟩ := scanSign_token hsg hne hall rest
  have hdrop : (w ++ (sg ++ ds) ++ rest).dropWhile isSpace = sg ++ ds ++ rest := by
    rw [List.append_assoc]
    exact dropWhile_space_run w _ hw hsp
  unfold scanInt
  rw [hdrop, h2]
  constructor
  · exact scanDigits_accepts _ ds rest hne hall
  · intro hrest
    exact ⟨_, scanDigits_run _ ds rest hne hall hrest⟩

/-- Every text that begins with a frame is accepted by `sscanf`: together with
`sscanfCmd_some` this characterises the accepted commands. -/
theorem sscanfCmd_accepts {l : List Char} (h : BeginsWithFrame l) :
    ∃ p, sscanfCmd l = some p := by
  obtain ⟨w1, a, w2, b, rest, hw1, ha, hw2, hb, rfl⟩ := h
  obtain ⟨v1, e1⟩ := (scanInt_accepts w1 a (',' :: 'T' :: ':' :: (w2 ++ b ++ rest)) hw1 ha).2
    (by simp [isDigit])
  obtain ⟨p2, e2⟩ := (scanInt_accepts w2 b rest hw2 hb).1
  have el : ['S', ':'] ++ w1 ++ a ++ [',', 'T', ':'] ++ w2 ++ b ++ rest =
      'S' :: ':' :: (w1 ++ a ++ ',' :: 'T' :: ':' :: (w2 ++ b ++ rest)) := by simp
  rw [el]
  simp only [sscanfCmd, scanChar_self, Option.some_bind, e1, e2]
  exact ⟨_, rfl⟩

/-- A payload whose text begins with a frame is applied: `lastCmd` becomes the clock reading. -/
theorem onWrite_accepted (value : List Char) (now : Nat) (st : State)
    (h : BeginsWithFrame (trim (cString value))) : (onWrite value now st).lastCmd = now := by
  obtain ⟨p, hp⟩ := sscanfCmd_accepts h
  obtain ⟨w1, a, w2, b, rest, _, _, _, _, e⟩ := h
  have hs : startsWith (trim (cString value)) ['S', ':'] = true := by
    rw [e]
    simp [startsWith, List.isPrefixOf]
  simp [onWrite, hs, hp, ledcWrite]

theorem onWrite_rejected (value : List Char) (now : Nat) (st : State)
    (h : sscanfCmd (trim (cString value)) = none) : onWrite value now st = st := by
  simp [onWrite, h]

theorem exactFrame_last {l : List Char} (h : IsExactFrame l) :
    ∃ c, l.getLast? = some c ∧ isDigit c = true := by
  obtain ⟨a, b, _, ⟨sg, ds, hb, _, hne, hall⟩, hl⟩ := h
  refine ⟨ds.getLast hne, ?_, hall _ (List.getLast_mem hne)⟩
  rw [hl, hb, ← List.append_assoc, List.getLast?_append_of_ne_nil _ hne,
    List.getLast?_eq_getLast _ hne]

/-! ### The main loop -/

/-- On clock readings that have not wrapped, `u32sub` is the plain difference. -/
theorem u32sub_of_le (a b : Nat) (hab : b ≤ a) (ha : a < 2 ^ 32) : u32sub a b = a - b := by
  unfold u32sub
  have hb : b < 2 ^ 32 := lt_of_le_of_lt hab ha
  rw [Nat.mod_eq_of_lt ha, Nat.mod_eq_of_lt hb]
  have e : a + 2 ^ 32 - b = (a - b) + 2 ^ 32 := by omega
  rw [e, Nat.add_mod_right, Nat.mod_eq_of_lt (by omega)]

theorem loopBattery_outputs (tBat tStamp : Nat) (raw : Int) (st : State) :
    (loopBattery tBat tStamp raw st).duty0 = st.duty0 ∧
    (loopBattery tBat tStamp raw st).duty1 = st.duty1 ∧
    (loopBattery tBat tStamp raw st).lastCmd = st.lastCmd ∧
    (loopBattery tBat tStamp raw st).deviceConnected = st.deviceConnected := by
  unfold loopBattery
  split_ifs <;> simp

theorem loopFailsafe_lastCmd (tCmd : Nat) (st : State) :
    (loopFailsafe tCmd st).lastCmd = st.lastCmd ∧
    (loopFailsafe tCmd st).deviceConnected = st.deviceConnected := by
  unfold loopFailsafe
  split_ifs <;> simp [ledcWrite]

theorem loopFailsafe_neutral (tCmd : Nat) (st : State) (h0 : st.duty0 = usToDuty 1500)
    (h1 : st.duty1 = usToDuty 1500) :
    (loopFailsafe tCmd st).duty0 = usToDuty 1500 ∧
    (loopFailsafe tCmd st).duty1 = usToDuty 1500 := by
  unfold loopFailsafe
  split_ifs <;> simp [ledcWrite, h0, h1]

theorem hello_no_frame : ¬ BeginsWithFrame (trim (cString ("HELLO".toList))) := by
  have e : trim (cString ("HELLO".toList)) = ['H', 'E', 'L', 'L', 'O'] := by decide
  rw [e]
  rintro ⟨w1, a, w2, b, rest, _, _, _, _, h⟩
  simp at h

/-! ## The claims -/

/-- Claim C1, refuted as stated: the payload `S:4294968896,T:1500` carries an integer that
does not fit the 32-bit `int` the handler reads it into; the steering duty becomes 1310, that of
1600 µs, not `usToDuty (clamp 4294968896) = 1638`. -/
theorem C1_counterexample :
    frame 4294968896 1500 = "S:4294968896,T:1500".toList ∧
    (onWrite (frame 4294968896 1500) 77 (setup (boot 0 0))).duty0 = 1310 ∧
    usToDuty (clamp 4294968896) = 1638 ∧
    (onWrite (frame 4294968896 1500) 77 (setup (boot 0 0))).duty0 ≠
      usToDuty (clamp 4294968896) := by
  refine ⟨by decide!, by decide!, by decide!, by decide!⟩

/-- Claim C1, amended: for all integers `s` and `t` in the range of a 32-bit `int` and every
prior state, after `onWrite` processes the payload `S:<s>,T:<t>` the steering duty is
`usToDuty (clamp s)` and the throttle duty is `usToDuty (clamp t)`, where
`clamp x = max(1000, min(2000, x))` lies in `[1000, 2000]`; the payload `S:3000,T:-50` yields
the duties 1638 and 819. -/
theorem C1_write_clamps (s t : Int) (now : Nat) (st : State) (hs : IsInt32 s)
    (ht : IsInt32 t) :
    (onWrite (frame s t) now st).duty0 = usToDuty (clamp s) ∧
    (onWrite (frame s t) now st).duty1 = usToDuty (clamp t) ∧
    (1000 ≤ clamp s ∧ clamp s ≤ 2000) ∧ (1000 ≤ clamp t ∧ clamp t ≤ 2000) ∧
    (onWrite ("S:3000,T:-50".toList) now st).duty0 = 1638 ∧
    (onWrite ("S:3000,T:-50".toList) now st).duty1 = 819 := by
  have e : "S:3000,T:-50".toList = frame 3000 (-50) := by decide
  have e0 : usToDuty (constrain (toInt32 3000) 1000 2000) = 1638 := by decide!
  have e1 : usToDuty (constrain (toInt32 (-50)) 1000 2000) = 819 := by decide!
  rw [e, onWrite_frame, onWrite_frame]
  refine ⟨?_, ?_, clamp_range s, clamp_range t, e0, e1⟩
  · show usToDuty (constrain (toInt32 s) 1000 2000) = usToDuty (clamp s)
    rw [constrain_toInt32 hs]
  · show usToDuty (constrain (toInt32 t) 1000 2000) = usToDuty (clamp t)
    rw [constrain_toInt32 ht]

/-- The out-of-band frame `S:3000,T:-50` of the specification. -/
theorem C1_write_clamps_witness :
    IsInt32 3000 ∧ IsInt32 (-50) ∧
    (onWrite (frame 3000 (-50)) 77 (setup (boot 0 0))).duty0 = usToDuty (clamp 3000) ∧
    (onWrite (frame 3000 (-50)) 77 (setup (boot 0 0))).duty1 = usToDuty (clamp (-50)) :=
  ⟨⟨by decide, by decide⟩, ⟨by decide, by decide⟩,
    (C1_write_clamps 3000 (-50) 77 (setup (boot 0 0)) ⟨by decide, by decide⟩
      ⟨by decide, by decide⟩).1,
    (C1_write_clamps 3000 (-50) 77 (setup (boot 0 0)) ⟨by decide, by decide⟩
      ⟨by decide, by decide⟩).2.1⟩

/-- Claim C2, refuted as stated: the payload `S:1600,T:1400xyz` is not exactly of the form
`S:<int>,T:<int>`, yet `onWrite` applies it, changing the steering duty and `lastCmd`. -/
theorem C2_counterexample :
    ¬ IsExactFrame (trim (cString ("S:1600,T:1400xyz".toList))) ∧
    (onWrite ("S:1600,T:1400xyz".toList) 77 (setup (boot 0 0))).duty0 ≠
      (setup (boot 0 0)).duty0 ∧
    (onWrite ("S:1600,T:1400xyz".toList) 77 (setup (boot 0 0))).lastCmd ≠
      (setup (boot 0 0)).lastCmd := by
  refine ⟨?_, by decide!, by decide!⟩
  intro h
  obtain ⟨c, hc, hd⟩ := exactFrame_last h
  have e : (trim (cString ("S:1600,T:1400xyz".toList))).getLast? = some 'z' := by decide
  rw [e] at hc
  rw [← Option.some.inj hc] at hd
  exact absurd hd (by decide)

/-- Claim C2, amended: for every payload whose text (up to the first NUL, white space trimmed)
does not begin with a frame `S:<int>,T:<int>`, where each integer is optional white space, an
optional sign and at least one decimal digit, `onWrite` leaves the state unchanged, in
particular both PWM outputs and `lastCmd`. -/
theorem C2_rejected_unchanged (value : List Char) (now : Nat) (st : State)
    (h : ¬ BeginsWithFrame (trim (cString value))) : onWrite value now st = st := by
  cases hs : sscanfCmd (trim (cString value)) with
  | none => exact onWrite_rejected value now st hs
  | some p => exact absurd (sscanfCmd_some hs) h

/-- The payload `HELLO` is rejected and changes nothing. -/
theorem C2_rejected_unchanged_witness :
    ¬ BeginsWithFrame (trim (cString ("HELLO".toList))) ∧
    onWrite ("HELLO".toList) 77 (setup (boot 0 0)) = setup (boot 0 0) :=
  ⟨hello_no_frame, C2_rejected_unchanged _ 77 _ hello_no_frame⟩

/-- Claim C3: for every state and every main-loop iteration whose clock reading `now` satisfies
`now - lastCmd > 500` (the unsigned 32-bit difference the code computes), both PWM channels hold
the neutral duty `usToDuty 1500` afterwards.  The state right after `setup`, with `lastCmd = 0`,
is one such state. -/
theorem C3_failsafe_neutral (st : State) (tBat tStamp now : Nat) (raw : Int)
    (h : 500 < u32sub now st.lastCmd) :
    (loop tBat tStamp now raw st).duty0 = usToDuty 1500 ∧
    (loop tBat tStamp now raw st).duty1 = usToDuty 1500 := by
  have hb := (loopBattery_outputs tBat tStamp raw st).2.2.1
  unfold loop loopFailsafe
  rw [hb, if_pos h]
  simp [ledcWrite]

/-- In the state after `setup`, where no command has arrived, an iteration at time 2000 ms
writes neutral. -/
theorem C3_failsafe_neutral_witness :
    500 < u32sub 2000 (setup (boot 7 9)).lastCmd ∧
    (loop 2000 2000 2000 2859 (setup (boot 7 9))).duty0 = usToDuty 1500 ∧
    (loop 2000 2000 2000 2859 (setup (boot 7 9))).duty1 = usToDuty 1500 :=
  ⟨by decide, C3_failsafe_neutral (setup (boot 7 9)) 2000 2000 2000 2859 (by decide)⟩

/-- Claim C4: for every frame `S:<s>,T:<t>`, whatever the integers, `onWrite` sets `lastCmd` to
the clock reading `now`, so a frame outside `[1000, 2000]` counts as a valid command; the same
holds for every payload whose text begins with integer tokens in the places of `<s>` and
`<t>`. -/
theorem C4_write_stamps (s t : Int) (now : Nat) (st : State) :
    (onWrite (frame s t) now st).lastCmd = now ∧
    ∀ value : List Char, BeginsWithFrame (trim (cString value)) →
      (onWrite value now st).lastCmd = now := by
  refine ⟨?_, fun value h => onWrite_accepted value now st h⟩
  rw [onWrite_frame]

/-- Claim C5, refuted as stated: with the second frame `S:4294968896,T:1500` the final
steering duty is 1310, not `usToDuty (clamp 4294968896) = 1638`. -/
theorem C5_counterexample :
    (onWrite (frame 4294968896 1500) 20
      (onWrite (frame 1500 1500) 10 (setup (boot 0 0)))).duty0 = 1310 ∧
    (onWrite (frame 4294968896 1500) 20
      (onWrite (frame 1500 1500) 10 (setup (boot 0 0)))).duty0 ≠
      usToDuty (clamp 4294968896) := by
  refine ⟨by decide!, by decide!⟩

/-- Claim C5, amended: when two frames are applied in order, the final state is the one the
second frame alone gives, whatever the first frame was, and `lastCmd` is at least the arrival
time of the second frame; when `s2`, `t2` lie in the range of a 32-bit `int`, the final duties
are `usToDuty (clamp s2)` and `usToDuty (clamp t2)`. -/
theorem C5_last_frame_wins (s1 t1 s2 t2 : Int) (n1 n2 : Nat) (st : State) :
    (IsInt32 s2 →
      (onWrite (frame s2 t2) n2 (onWrite (frame s1 t1) n1 st)).duty0 = usToDuty (clamp s2)) ∧
    (IsInt32 t2 →
      (onWrite (frame s2 t2) n2 (onWrite (frame s1 t1) n1 st)).duty1 = usToDuty (clamp t2)) ∧
    n2 ≤ (onWrite (frame s2 t2) n2 (onWrite (frame s1 t1) n1 st)).lastCmd ∧
    onWrite (frame s2 t2) n2 (onWrite (frame s1 t1) n1 st) = onWrite (frame s2 t2) n2 st := by
  refine ⟨?_, ?_, ?_, ?_⟩
  · intro h
    simp [onWrite_frame, constrain_toInt32 h]
  · intro h
    simp [onWrite_frame, constrain_toInt32 h]
  · simp [onWrite_frame]
  · simp [onWrite_frame]

/-- Claim C6, refuted as stated: `usToDuty 1500` is 1228, not the nearest integer 1229 of
`(1500 / 20000) * 16383 = 1228.725`. -/
theorem C6_counterexample :
    usToDuty 1500 ≠ 1229 ∧ (usToDuty 1500 : Int) ≠ specDuty 1500 := by
  constructor <;> decide!

/-- Claim C6, amended: for every pulse width in `[1000, 2000]`, `usToDuty us` is
`(us / 20000) * 16383` truncated toward zero, that is `⌊us * 16383 / 20000⌋`; it is the nearest
integer or one below it.  In particular `usToDuty` maps 1500, 1000, 2000, 1600 and 1400 to
1228, 819, 1638, 1310 and 1146. -/
theorem C6_usToDuty_truncates (us : Int) (h1 : 1000 ≤ us) (h2 : us ≤ 2000) :
    (usToDuty us : Int) = us * 16383 / 20000 ∧
    ((usToDuty us : Int) = specDuty us ∨ (usToDuty us : Int) + 1 = specDuty us) ∧
    usToDuty 1500 = 1228 ∧ usToDuty 1000 = 819 ∧ usToDuty 2000 = 1638 ∧
    usToDuty 1600 = 1310 ∧ usToDuty 1400 = 1146 := by
  obtain ⟨n, rfl⟩ := Int.eq_ofNat_of_zero_le (show (0 : Int) ≤ us by omega)
  have hf := usToDuty_floor n (by omega) (by omega)
  have e : (usToDuty (n : Int) : Int) = (n : Int) * 16383 / 20000 := by
    rw [hf]
    omega
  refine ⟨e, ?_, by decide!, by decide!, by decide!, by decide!, by decide!⟩
  rw [e]
  unfold specDuty
  omega

/-- At 1600 µs the duty is 1310. -/
theorem C6_usToDuty_truncates_witness :
    (usToDuty 1600 : Int) = 1600 * 16383 / 20000 ∧
    ((usToDuty 1600 : Int) = specDuty 1600 ∨ (usToDuty 1600 : Int) + 1 = specDuty 1600) ∧
    usToDuty 1500 = 1228 ∧ usToDuty 1000 = 819 ∧ usToDuty 2000 = 1638 ∧
    usToDuty 1600 = 1310 ∧ usToDuty 1400 = 1146 :=
  C6_usToDuty_truncates 1600 (by decide) (by decide)

theorem step_keeps_neutral (st : State) (e : Event) (hw : e.isWrite = false)
    (h : st.duty0 = usToDuty 1500 ∧ st.duty1 = usToDuty 1500 ∧ st.lastCmd = 0) :
    (step st e).duty0 = usToDuty 1500 ∧ (step st e).duty1 = usToDuty 1500 ∧
      (step st e).lastCmd = 0 := by
  cases e with
  | connect => exact h
  | disconnect => exact h
  | write value now => simp [Event.isWrite] at hw
  | tick tBat tStamp tCmd raw =>
    obtain ⟨b0, b1, b2, _⟩ := loopBattery_outputs tBat tStamp raw st
    have hn := loopFailsafe_neutral tCmd (loopBattery tBat tStamp raw st)
      (b0.trans h.1) (b1.trans h.2.1)
    have hl := (loopFailsafe_lastCmd tCmd (loopBattery tBat tStamp raw st)).1
    exact ⟨hn.1, hn.2, hl.trans (b2.trans h.2.2)⟩

theorem run_keeps_neutral (evs : List Event) (st : State)
    (hw : ∀ e ∈ evs, e.isWrite = false)
    (h : st.duty0 = usToDuty 1500 ∧ st.duty1 = usToDuty 1500 ∧ st.lastCmd = 0) :
    (run st evs).duty0 = usToDuty 1500 ∧ (run st evs).duty1 = usToDuty 1500 ∧
      (run st evs).lastCmd = 0 := by
  induction evs generalizing st with
  | nil => exact h
  | cons e evs ih =>
    have := step_keeps_neutral st e (hw e (List.mem_cons_self _ _)) h
    exact ih (step st e) (fun x hx => hw x (List.mem_cons_of_mem _ hx)) this

/-- Claim C7: after `setup`, whatever the duty registers held before, and after any sequence of
events that contains no write to the command characteristic, both PWM channels hold
`usToDuty 1500` and `lastCmd` is 0. -/
theorem C7_neutral_at_boot (d0 d1 : Nat) (evs : List Event)
    (hw : ∀ e ∈ evs, e.isWrite = false) :
    (run (setup (boot d0 d1)) evs).duty0 = usToDuty 1500 ∧
    (run (setup (boot d0 d1)) evs).duty1 = usToDuty 1500 ∧
    (run (setup (boot d0 d1)) evs).lastCmd = 0 :=
  run_keeps_neutral evs _ hw ⟨rfl, rfl, rfl⟩

/-- Right after `setup`, and after a connect, a main-loop iteration and a disconnect. -/
theorem C7_neutral_at_boot_witness :
    ((run (setup (boot 7 9)) []).duty0 = usToDuty 1500 ∧
      (run (setup (boot 7 9)) []).duty1 = usToDuty 1500 ∧
      (run (setup (boot 7 9)) []).lastCmd = 0) ∧
    ((run (setup (boot 7 9))
        [Event.connect, Event.tick 2000 2000 2000 2859, Event.disconnect]).duty0 =
        usToDuty 1500 ∧
      (run (setup (boot 7 9))
        [Event.connect, Event.tick 2000 2000 2000 2859, Event.disconnect]).duty1 =
        usToDuty 1500 ∧
      (run (setup (boot 7 9))
        [Event.connect, Event.tick 2000 2000 2000 2859, Event.disconnect]).lastCmd = 0) :=
  ⟨C7_neutral_at_boot 7 9 [] (by simp),
    C7_neutral_at_boot 7 9 [Event.connect, Event.tick 2000 2000 2000 2859, Event.disconnect]
      (by simp [Event.isWrite])⟩

/-- Claim C8: for every raw ADC reading, `getBatteryPercent` returns an integer in `[0, 100]`;
it returns 0 when the derived voltage is below 6.0 V and 100 when it is above 8.4 V. -/
theorem C8_battery_percent_range (raw : Int) :
    0 ≤ getBatteryPercent raw ∧ getBatteryPercent raw ≤ 100 ∧
    ((batteryVoltage raw).toRat < 6 → getBatteryPercent raw = 0) ∧
    (84 / 10 < (batteryVoltage raw).toRat → getBatteryPercent raw = 100) := by
  have r := percentOfVoltage_range (batteryVoltage raw)
  refine ⟨r.1, r.2, ?_, ?_⟩
  · intro h
    have hz := F32.units_lt_of_toRat_lt _ 6 (by exact_mod_cast h)
    have e6 : (F32.lit 6 1).units = 6 * 2 ^ 149 := by decide!
    have hlt : (batteryVoltage raw).units < (F32.lit 6 1).units := by
      rw [e6]
      exact hz
    simp only [getBatteryPercent, percentOfVoltage, if_pos hlt]
  · intro h
    have hK : (F32.lit 84 10).units * 10 ≤ 84 * 2 ^ 149 := by decide!
    have hz := F32.lt_units_of_lt_toRat _ _ 84 10 (by norm_num) (by exact_mod_cast hK)
      (by exact_mod_cast h)
    have e : (F32.lit 6 1).units ≤ (F32.lit 84 10).units := by decide!
    have h6 : ¬ (batteryVoltage raw).units < (F32.lit 6 1).units := by omega
    simp only [getBatteryPercent, percentOfVoltage, if_neg h6, if_pos hz]

/-- Claim C9: for raw ADC samples `r1 < r2` the percent derived from `r1` is at most the percent
derived from `r2`. -/
theorem C9_battery_percent_monotone (r1 r2 : Int) (h : r1 < r2) :
    getBatteryPercent r1 ≤ getBatteryPercent r2 :=
  percentOfVoltage_mono (batteryVoltage_mono h.le)

/-- Two neighbouring samples across the 6.0 V threshold. -/
theorem C9_battery_percent_monotone_witness :
    (2392 : Int) < 2393 ∧ getBatteryPercent 2392 ≤ getBatteryPercent 2393 :=
  ⟨by decide, C9_battery_percent_monotone 2392 2393 (by decide)⟩

/-! ### More on the main loop -/

theorem loopFailsafe_idle (tCmd : Nat) (st : State) (h : ¬ 500 < u32sub tCmd st.lastCmd) :
    loopFailsafe tCmd st = st := by
  unfold loopFailsafe
  rw [if_neg h]

theorem loopFailsafe_fires (tCmd : Nat) (st : State) (h : 500 < u32sub tCmd st.lastCmd) :
    loopFailsafe tCmd st = { st with duty0 := usToDuty 1500, duty1 := usToDuty 1500 } := by
  unfold loopFailsafe
  rw [if_pos h]
  simp [ledcWrite]

theorem loop_idle_outputs (tBat tStamp tCmd : Nat) (raw : Int) (st : State)
    (h : ¬ 500 < u32sub tCmd st.lastCmd) :
    (loop tBat tStamp tCmd raw st).duty0 = st.duty0 ∧
    (loop tBat tStamp tCmd raw st).duty1 = st.duty1 := by
  obtain ⟨b0, b1, b2, _⟩ := loopBattery_outputs tBat tStamp raw st
  unfold loop
  rw [loopFailsafe_idle _ _ (by rw [b2]; exact h)]
  exact ⟨b0, b1⟩

theorem loop_fires_outputs (tBat tStamp tCmd : Nat) (raw : Int) (st : State)
    (h : 500 < u32sub tCmd st.lastCmd) :
    (loop tBat tStamp tCmd raw st).duty0 = usToDuty 1500 ∧
    (loop tBat tStamp tCmd raw st).duty1 = usToDuty 1500 := by
  obtain ⟨_, _, b2, _⟩ := loopBattery_outputs tBat tStamp raw st
  unfold loop
  rw [loopFailsafe_fires _ _ (by rw [b2]; exact h)]
  exact ⟨rfl, rfl⟩

theorem loop_lastCmd (tBat tStamp tCmd : Nat) (raw : Int) (st : State) :
    (loop tBat tStamp tCmd raw st).lastCmd = st.lastCmd ∧
    (loop tBat tStamp tCmd raw st).deviceConnected = st.deviceConnected := by
  obtain ⟨_, _, b2, b3⟩ := loopBattery_outputs tBat tStamp raw st
  obtain ⟨f1, f2⟩ := loopFailsafe_lastCmd tCmd (loopBattery tBat tStamp raw st)
  exact ⟨f1.trans b2, f2.trans b3⟩

theorem step_quiet (last : Nat) (st : State) (e : Event) (hq : e.quietBefore last = true)
    (hl : st.lastCmd = last) :
    (step st e).duty0 = st.duty0 ∧ (step st e).duty1 = st.duty1 ∧
      (step st e).lastCmd = last := by
  cases e with
  | connect => exact ⟨rfl, rfl, hl⟩
  | disconnect => exact ⟨rfl, rfl, hl⟩
  | write value now => simp [Event.quietBefore] at hq
  | tick tBat tStamp tCmd raw =>
    simp only [Event.quietBefore, decide_eq_true_eq] at hq
    have h := loop_idle_outputs tBat tStamp tCmd raw st (by rw [hl]; omega)
    exact ⟨h.1, h.2, (loop_lastCmd tBat tStamp tCmd raw st).1.trans hl⟩

theorem run_quiet (last : Nat) (evs : List Event) (st : State)
    (hq : ∀ e ∈ evs, e.quietBefore last = true) (hl : st.lastCmd = last) :
    (run st evs).duty0 = st.duty0 ∧ (run st evs).duty1 = st.duty1 := by
  induction evs generalizing st with
  | nil => exact ⟨rfl, rfl⟩
  | cons e evs ih =>
    obtain ⟨s0, s1, s2⟩ := step_quiet last st e (hq e (List.mem_cons_self _ _)) hl
    obtain ⟨r0, r1⟩ := ih (step st e) (fun x hx => hq x (List.mem_cons_of_mem _ hx)) s2
    exact ⟨r0.trans s0, r1.trans s1⟩

/-! ### The divider ratio -/

theorem specVoltage_eq (num den : Nat) (hn : 0 < num) (hd : 0 < den) (raw : Int) :
    specVoltage ((num : ℚ) / den) raw =
      ((raw * 33 * den : Int) : ℚ) / ((40950 * num : Nat) : ℚ) := by
  have h1 : (num : ℚ) ≠ 0 := by exact_mod_cast hn.ne'
  have h2 : (den : ℚ) ≠ 0 := by exact_mod_cast hd.ne'
  unfold specVoltage
  push_cast
  rw [div_div_eq_mul_div, div_eq_div_iff (by positivity) (by positivity)]
  ring

theorem specPercent_eq (num den : Nat) (hn : 0 < num) (hd : 0 < den) (raw : Int) :
    specPercent ((num : ℚ) / den) raw = specPercentInt num den raw := by
  have hB : (0 : ℚ) < ((40950 * num : Nat) : ℚ) := by
    exact_mod_cast Nat.mul_pos (by norm_num) hn
  unfold specPercent specPercentInt
  rw [specVoltage_eq num den hn hd raw]
  generalize hA : (raw * 33 * den : Int) = A
  have c1 : ((A : ℚ) / ((40950 * num : Nat) : ℚ) < 6) ↔ A < 6 * (40950 * (num : Int)) := by
    rw [div_lt_iff₀ hB]
    constructor
    · intro h
      exact_mod_cast h
    · intro h
      exact_mod_cast h
  have c2 : ((84 : ℚ) / 10 < (A : ℚ) / ((40950 * num : Nat) : ℚ)) ↔
      84 * (40950 * (num : Int)) < 10 * A := by
    rw [lt_div_iff₀ hB]
    constructor
    · intro h
      have h' : (84 : ℚ) * ((40950 * num : Nat) : ℚ) < 10 * A := by linarith
      exact_mod_cast h'
    · intro h
      have h' : (84 : ℚ) * ((40950 * num : Nat) : ℚ) < 10 * A := by exact_mod_cast h
      linarith
  have c3 : ⌊((A : ℚ) / ((40950 * num : Nat) : ℚ) - 6) / (24 / 10) * 100⌋ =
      (A - 6 * (40950 * (num : Int))) * 1000 / (24 * (40950 * (num : Int))) := by
    have e : ((A : ℚ) / ((40950 * num : Nat) : ℚ) - 6) / (24 / 10) * 100 =
        (((A - 6 * (40950 * (num : Int))) * 1000 : Int) : ℚ) /
          ((24 * (40950 * num) : Nat) : ℚ) := by
      have hB' := hB.ne'
      push_cast at hB' ⊢
      field_simp
      ring
    rw [e, Rat.floor_intCast_div_natCast]
    push_cast
    rfl
  simp only [c1, c2, c3]

theorem checkTree_sound (P : Nat → Bool) (d lo : Nat) (h : checkTree P d lo = true) (i : Nat)
    (hi : i < 2 ^ d) : P (lo + i) = true := by
  induction d generalizing lo i with
  | zero =>
    have : i = 0 := by simpa using hi
    subst this
    simpa [checkTree] using h
  | succ d ih =>
    simp only [checkTree, Bool.and_eq_true] at h
    rw [pow_succ] at hi
    by_cases hlt : i < 2 ^ d
    · exact ih lo h.1 i hlt
    · have := ih (lo + 2 ^ d) h.2 (i - 2 ^ d) (by omega)
      rwa [show lo + 2 ^ d + (i - 2 ^ d) = lo + i by omega] at this

theorem percentSteps_checked : checkTree percentStepOk 12 0 = true := by decide!

theorem percentStep (i : Nat) (hi : i < 4096)
    (hs : specPercentInt 32 100 i ≠ specPercentInt 32 100 (i + 1 : Nat)) :
    getBatteryPercent i = specPercentInt 32 100 i ∧
      getBatteryPercent (i + 1 : Nat) = specPercentInt 32 100 (i + 1 : Nat) := by
  have h := checkTree_sound percentStepOk 12 0 percentSteps_checked i (by norm_num; exact hi)
  rw [Nat.zero_add] at h
  simp only [percentStepOk, Bool.or_eq_true, Bool.and_eq_true, decide_eq_true_eq] at h
  rcases h with h | h
  · exact absurd h hs
  · exact h

theorem getBatteryPercent_mono {r1 r2 : Int} (h : r1 ≤ r2) :
    getBatteryPercent r1 ≤ getBatteryPercent r2 :=
  percentOfVoltage_mono (batteryVoltage_mono h)

/-- Below every reading there is one with the same percent of the specification at which the
code agrees with the specification. -/
theorem percent_anchor_below (r : Nat) (hr : r ≤ 4096) :
    ∃ a : Nat, a ≤ r ∧ specPercentInt 32 100 a = specPercentInt 32 100 r ∧
      getBatteryPercent a = specPercentInt 32 100 a := by
  induction r with
  | zero => exact ⟨0, le_refl _, rfl, by decide!⟩
  | succ r ih =>
    by_cases hs : specPercentInt 32 100 r = specPercentInt 32 100 (r + 1 : Nat)
    · obtain ⟨a, ha, e1, e2⟩ := ih (by omega)
      exact ⟨a, by omega, e1.trans hs, e2⟩
    · exact ⟨r + 1, le_refl _, rfl, (percentStep r (by omega) hs).2⟩

theorem percent_anchor_above (k r : Nat) (hr : r + k = 4096) :
    ∃ a : Nat, r ≤ a ∧ specPercentInt 32 100 a = specPercentInt 32 100 r ∧
      getBatteryPercent a = specPercentInt 32 100 a := by
  induction k generalizing r with
  | zero =>
    have : r = 4096 := by omega
    subst this
    exact ⟨4096, le_refl _, rfl, by decide!⟩
  | succ k ih =>
    by_cases hs : specPercentInt 32 100 r = specPercentInt 32 100 (r + 1 : Nat)
    · obtain ⟨a, ha, e1, e2⟩ := ih (r + 1) (by omega)
      exact ⟨a, by omega, e1.trans hs.symm, e2⟩
    · exact ⟨r, le_refl _, rfl, (percentStep r (by omega) hs).1⟩

theorem getBatteryPercent_eq_specInt (raw : Int) :
    getBatteryPercent raw = specPercentInt 32 100 raw := by
  have h0 : getBatteryPercent 0 = 0 := by decide!
  have h1 : getBatteryPercent 4096 = 100 := by decide!
  have rng := percentOfVoltage_range (batteryVoltage raw)
  rcases lt_or_le raw 0 with hneg | hpos
  · have := getBatteryPercent_mono (show raw ≤ 0 by omega)
    have e : getBatteryPercent raw = 0 := by
      unfold getBatteryPercent at *
      omega
    rw [e]
    unfold specPercentInt
    rw [if_pos (by push_cast; omega)]
  rcases le_or_lt raw 4096 with hle | hbig
  · obtain ⟨r, rfl⟩ := Int.eq_ofNat_of_zero_le hpos
    have hr : r ≤ 4096 := by omega
    obtain ⟨a, ha, ea, ca⟩ := percent_anchor_below r hr
    obtain ⟨b, hb, eb, cb⟩ := percent_anchor_above (4096 - r) r (by omega)
    have lo := getBatteryPercent_mono (show (a : Int) ≤ (r : Int) by exact_mod_cast ha)
    have hi := getBatteryPercent_mono (show (r : Int) ≤ (b : Int) by exact_mod_cast hb)
    rw [ca, ea] at lo
    rw [cb, eb] at hi
    exact le_antisymm hi lo
  · have := getBatteryPercent_mono (show (4096 : Int) ≤ raw by omega)
    have e : getBatteryPercent raw = 100 := by
      unfold getBatteryPercent at *
      omega
    rw [e]
    unfold specPercentInt
    rw [if_neg (by push_cast; omega), if_pos (by push_cast; omega)]

/-- Claim C11, refuted as stated: at the raw reading 2391 the specification's voltage with the
ratio 47 / (100 + 47) is about 6.026 V, whose interpolation is 1 %, while `getBatteryPercent`
returns 0. -/
theorem C11_counterexample :
    getBatteryPercent 2391 = 0 ∧ specPercent (47 / (100 + 47)) 2391 = 1 ∧
    getBatteryPercent 2391 ≠ specPercent (47 / (100 + 47)) 2391 := by
  have e : specPercent (47 / (100 + 47)) 2391 = 1 := by
    have := specPercent_eq 47 147 (by norm_num) (by norm_num) 2391
    have r : ((47 : Nat) : ℚ) / ((147 : Nat) : ℚ) = 47 / (100 + 47) := by norm_num
    rw [r] at this
    rw [this]
    decide
  have c : getBatteryPercent 2391 = 0 := by decide!
  refine ⟨c, e, ?_⟩
  rw [c, e]
  decide

/-- Claim C11, amended: for every raw ADC reading, in particular every one in 0..4095, the
percent `getBatteryPercent` returns is the saturating linear interpolation between 6.0 V and
8.4 V, cut down to an integer, of the voltage `V = (raw / 4095) * 3.3 / 0.32`: the divider
ratio used is the literal 0.32, not 47 / (100 + 47). -/
theorem C11_battery_voltage_ratio (raw : Int) :
    getBatteryPercent raw = specPercent (32 / 100) raw := by
  have := specPercent_eq 32 100 (by norm_num) (by norm_num) raw
  have r : ((32 : Nat) : ℚ) / ((100 : Nat) : ℚ) = 32 / 100 := by norm_num
  rw [r] at this
  rw [this]
  exact getBatteryPercent_eq_specInt raw

theorem dropWhile_all {p : Char → Bool} (w : List Char) (hw : ∀ c ∈ w, p c = true) :
    w.dropWhile p = [] := by
  induction w with
  | nil => rfl
  | cons c w ih =>
    rw [List.dropWhile_cons_of_pos (hw c (List.mem_cons_self _ _))]
    exact ih (fun x hx => hw x (List.mem_cons_of_mem _ hx))

theorem dropWhile_reverse_trailing {p : Char → Bool} (l w : List Char)
    (hw : ∀ c ∈ w, p c = true) :
    ((l ++ w).dropWhile p).reverse.dropWhile p = (l.dropWhile p).reverse.dropWhile p := by
  induction l with
  | nil =>
    simp only [List.nil_append, List.dropWhile_nil, List.reverse_nil]
    rw [dropWhile_all w hw]
    rfl
  | cons c l ih =>
    by_cases hc : p c = true
    · rw [List.cons_append, List.dropWhile_cons_of_pos hc, List.dropWhile_cons_of_pos hc]
      exact ih
    · rw [List.cons_append, List.dropWhile_cons_of_neg hc, List.dropWhile_cons_of_neg hc,
        ← List.cons_append, List.reverse_append]
      rw [List.dropWhile_append_of_pos]
      intro x hx
      exact hw x (List.mem_reverse.1 hx)

/-- White space before and after a text does not change what `trim` returns. -/
theorem trim_padded (w1 y w2 : List Char) (h1 : ∀ c ∈ w1, isSpace c = true)
    (h2 : ∀ c ∈ w2, isSpace c = true) : trim (w1 ++ y ++ w2) = trim y := by
  unfold trim
  rw [List.append_assoc, List.dropWhile_append_of_pos h1, dropWhile_reverse_trailing y w2 h2]

/-- Every text is its trimmed text with white space before and after. -/
theorem trim_decompose (p : List Char) :
    ∃ w1 w2, (∀ c ∈ w1, isSpace c = true) ∧ (∀ c ∈ w2, isSpace c = true) ∧
      p = w1 ++ trim p ++ w2 := by
  refine ⟨p.takeWhile isSpace, ((p.dropWhile isSpace).reverse.takeWhile isSpace).reverse,
    fun c hc => List.mem_takeWhile_imp hc,
    fun c hc => List.mem_takeWhile_imp (List.mem_reverse.1 hc), ?_⟩
  have e1 := (List.takeWhile_append_dropWhile isSpace p).symm
  have e2 := (List.takeWhile_append_dropWhile isSpace (p.dropWhile isSpace).reverse).symm
  have e3 : p.dropWhile isSpace =
      ((p.dropWhile isSpace).reverse.dropWhile isSpace).reverse ++
        ((p.dropWhile isSpace).reverse.takeWhile isSpace).reverse := by
    rw [← List.reverse_append, ← e2, List.reverse_reverse]
  unfold trim
  rw [List.append_assoc, ← e3]
  exact e1

theorem isSpace_not_nul {c : Char} (h : isSpace c = true) :
    decide (c ≠ Char.ofNat 0) = true := by
  rw [decide_eq_true_eq]
  rintro rfl
  exact absurd h (by decide)

/-- Appending white space to a text appends white space, or nothing, to its C string. -/
theorem cString_trailing (p w : List Char) (hw : ∀ c ∈ w, isSpace c = true) :
    ∃ w0, (∀ c ∈ w0, isSpace c = true) ∧ cString (p ++ w) = cString p ++ w0 := by
  induction p with
  | nil =>
    refine ⟨w, hw, ?_⟩
    unfold cString
    rw [List.nil_append, List.takeWhile_nil, List.nil_append, List.takeWhile_eq_self_iff]
    intro c hc
    exact isSpace_not_nul (hw c hc)
  | cons c p ih =>
    obtain ⟨w0, h0, e⟩ := ih
    unfold cString at e ⊢
    by_cases hc : decide (c ≠ Char.ofNat 0) = true
    · refine ⟨w0, h0, ?_⟩
      simp only [List.cons_append, List.takeWhile_cons, hc, if_true, e]
    · refine ⟨[], by simp, ?_⟩
      simp only [List.cons_append, List.takeWhile_cons, hc, if_false, List.append_nil]
      simp

theorem cString_leading (w p : List Char) (hw : ∀ c ∈ w, isSpace c = true) :
    cString (w ++ p) = w ++ cString p := by
  unfold cString
  rw [List.takeWhile_append_of_pos]
  intro c hc
  exact isSpace_not_nul (hw c hc)

/-- The command text of a payload is not affected by white space around the payload. -/
theorem command_padded (w1 p w2 : List Char) (h1 : ∀ c ∈ w1, isSpace c = true)
    (h2 : ∀ c ∈ w2, isSpace c = true) :
    trim (cString (w1 ++ p ++ w2)) = trim (cString p) := by
  obtain ⟨w0, h0, e⟩ := cString_trailing p w2 h2
  rw [List.append_assoc, cString_leading w1 _ h1, e, ← List.append_assoc]
  exact trim_padded w1 (cString p) w0 h1 h0

theorem command_trimmed (p : List Char) : trim (cString (trim p)) = trim (cString p) := by
  obtain ⟨w1, w2, h1, h2, e⟩ := trim_decompose p
  have := command_padded w1 (trim p) w2 h1 h2
  rw [← e] at this
  exact this.symm

theorem onWrite_congr (v1 v2 : List Char) (now : Nat) (st : State)
    (h : trim (cString v1) = trim (cString v2)) : onWrite v1 now st = onWrite v2 now st := by
  unfold onWrite
  rw [h]

/-- Claim C12: for every payload `p` and all strings `w1`, `w2` of white space, `onWrite` applied
to `w1 ++ p ++ w2` yields the same state, hence the same PWM outputs and `lastCmd`, as applied to
the trimmed payload and as applied to `p`; a frame `S:<s>,T:<t>` with white space around it is
accepted, stamping `lastCmd`, and applied exactly like the bare frame. -/
theorem C12_whitespace_tolerated (w1 p w2 : List Char) (now : Nat) (st : State) (s t : Int)
    (h1 : ∀ c ∈ w1, isSpace c = true) (h2 : ∀ c ∈ w2, isSpace c = true) :
    onWrite (w1 ++ p ++ w2) now st = onWrite (trim p) now st ∧
    onWrite (w1 ++ p ++ w2) now st = onWrite p now st ∧
    onWrite (w1 ++ frame s t ++ w2) now st = onWrite (frame s t) now st ∧
    (onWrite (w1 ++ frame s t ++ w2) now st).lastCmd = now := by
  have hf := onWrite_congr _ _ now st (command_padded w1 (frame s t) w2 h1 h2)
  refine ⟨?_, ?_, hf, ?_⟩
  · exact onWrite_congr _ _ now st ((command_padded w1 p w2 h1 h2).trans (command_trimmed p).symm)
  · exact onWrite_congr _ _ now st (command_padded w1 p w2 h1 h2)
  · rw [hf, onWrite_frame]

/-- The frame `S:1600,T:1400` between two blanks and a blank and a line feed. -/
theorem C12_whitespace_tolerated_witness :
    onWrite ("  S:1600,T:1400 \n".toList) 77 (setup (boot 0 0)) =
      onWrite ("S:1600,T:1400".toList) 77 (setup (boot 0 0)) ∧
    (onWrite ("  S:1600,T:1400 \n".toList) 77 (setup (boot 0 0))).lastCmd = 77 := by
  have h := C12_whitespace_tolerated [' ', ' '] ("S:1600,T:1400".toList) [' ', '\n'] 77
    (setup (boot 0 0)) 1600 1400 (by decide) (by decide)
  have e : "  S:1600,T:1400 \n".toList = [' ', ' '] ++ "S:1600,T:1400".toList ++ [' ', '\n'] := by
    decide
  have f : "S:1600,T:1400".toList = frame 1600 1400 := by decide
  rw [e]
  refine ⟨h.2.1, ?_⟩
  rw [f]
  exact h.2.2.2

/-- Claim C13, refuted as stated: with a controller connected and exactly 1000 ms elapsed since
`lastBat`, the iteration neither samples the ADC nor notifies. -/
theorem C13_counterexample :
    (onConnect (setup (boot 0 0))).deviceConnected = true ∧
    u32sub 1000 (onConnect (setup (boot 0 0))).lastBat = 1000 ∧
    (loop 1000 1000 1000 2859 (onConnect (setup (boot 0 0)))).adcReads =
      (onConnect (setup (boot 0 0))).adcReads ∧
    (loop 1000 1000 1000 2859 (onConnect (setup (boot 0 0)))).notifyCount =
      (onConnect (setup (boot 0 0))).notifyCount ∧
    (loop 1000 1000 1000 2859 (onConnect (setup (boot 0 0)))).batValue =
      (onConnect (setup (boot 0 0))).batValue := by
  decide!

theorem loopFailsafe_telemetry (tCmd : Nat) (st : State) :
    (loopFailsafe tCmd st).adcReads = st.adcReads ∧
    (loopFailsafe tCmd st).notifyCount = st.notifyCount ∧
    (loopFailsafe tCmd st).batValue = st.batValue ∧
    (loopFailsafe tCmd st).lastBat = st.lastBat := by
  unfold loopFailsafe
  split_ifs <;> simp [ledcWrite]

/-- Claim C13, amended: a main-loop iteration samples the battery and publishes the percent
exactly when `deviceConnected` is true and more than 1000 ms (unsigned 32-bit difference) have
elapsed since `lastBat`; it then reads the ADC once, stores the decimal percent in the
characteristic, notifies once and sets `lastBat` to the clock.  Otherwise, in particular when
`deviceConnected` is false, it does no ADC sampling and leaves the telemetry value and `lastBat`
unchanged. -/
theorem C13_telemetry_gate (st : State) (tBat tStamp tCmd : Nat) (raw : Int) :
    ((st.deviceConnected = true ∧ 1000 < u32sub tBat st.lastBat) →
      (loop tBat tStamp tCmd raw st).adcReads = st.adcReads + 1 ∧
      (loop tBat tStamp tCmd raw st).notifyCount = st.notifyCount + 1 ∧
      (loop tBat tStamp tCmd raw st).batValue = renderInt (getBatteryPercent raw) ∧
      (loop tBat tStamp tCmd raw st).lastBat = tStamp) ∧
    (¬ (st.deviceConnected = true ∧ 1000 < u32sub tBat st.lastBat) →
      (loop tBat tStamp tCmd raw st).adcReads = st.adcReads ∧
      (loop tBat tStamp tCmd raw st).notifyCount = st.notifyCount ∧
      (loop tBat tStamp tCmd raw st).batValue = st.batValue ∧
      (loop tBat tStamp tCmd raw st).lastBat = st.lastBat) ∧
    ((loop tBat tStamp tCmd raw st).adcReads = st.adcReads + 1 ↔
      (st.deviceConnected = true ∧ 1000 < u32sub tBat st.lastBat)) ∧
    (st.deviceConnected = false →
      (loop tBat tStamp tCmd raw st).adcReads = st.adcReads ∧
      (loop tBat tStamp tCmd raw st).batValue = st.batValue ∧
      (loop tBat tStamp tCmd raw st).lastBat = st.lastBat) := by
  obtain ⟨f1, f2, f3, f4⟩ := loopFailsafe_telemetry tCmd (loopBattery tBat tStamp raw st)
  have pub : (st.deviceConnected = true ∧ 1000 < u32sub tBat st.lastBat) →
      (loop tBat tStamp tCmd raw st).adcReads = st.adcReads + 1 ∧
      (loop tBat tStamp tCmd raw st).notifyCount = st.notifyCount + 1 ∧
      (loop tBat tStamp tCmd raw st).batValue = renderInt (getBatteryPercent raw) ∧
      (loop tBat tStamp tCmd raw st).lastBat = tStamp := by
    intro h
    unfold loop
    rw [f1, f2, f3, f4]
    simp [loopBattery, h.1, h.2]
  have idle : ¬ (st.deviceConnected = true ∧ 1000 < u32sub tBat st.lastBat) →
      (loop tBat tStamp tCmd raw st).adcReads = st.adcReads ∧
      (loop tBat tStamp tCmd raw st).notifyCount = st.notifyCount ∧
      (loop tBat tStamp tCmd raw st).batValue = st.batValue ∧
      (loop tBat tStamp tCmd raw st).lastBat = st.lastBat := by
    intro h
    have hb : loopBattery tBat tStamp raw st = st := by
      unfold loopBattery
      rw [if_neg]
      simpa using h
    unfold loop
    rw [f1, f2, f3, f4, hb]
    exact ⟨rfl, rfl, rfl, rfl⟩
  refine ⟨pub, idle, ?_, ?_⟩
  · constructor
    · intro h
      by_contra hc
      have := (idle hc).1
      omega
    · intro h
      exact (pub h).1
  · intro h
    have := idle (by simp [h])
    exact ⟨this.1, this.2.2.1, this.2.2.2⟩

/-- Claim C14, refuted as stated: after the frame `S:4294968896,T:1500` and a main-loop
iteration 10 ms later the steering duty is 1310, not `usToDuty (clamp 4294968896) = 1638`. -/
theorem C14_counterexample :
    (run (onWrite (frame 4294968896 1500) 10000 (setup (boot 0 0)))
      [Event.tick 10010 10010 10010 2859]).duty0 = 1310 ∧
    (run (onWrite (frame 4294968896 1500) 10000 (setup (boot 0 0)))
      [Event.tick 10010 10010 10010 2859]).duty0 ≠ usToDuty (clamp 4294968896) := by
  refine ⟨by decide!, by decide!⟩

/-- Claim C14, amended: after a valid frame `S:<s>,T:<t>` stamped at `tw`, every later sequence
of main-loop iterations whose clock readings stay within 500 ms of `tw` (connects and
disconnects may occur in between) leaves both PWM channels at the values the frame commanded,
which are `usToDuty (clamp s)` and `usToDuty (clamp t)` when `s`, `t` lie in the range of a
32-bit `int`; and a main-loop iteration changes an output only when the 500 ms deadline has
expired. -/
theorem C14_active_reflects_frame (s t : Int) (tw : Nat) (st : State) (evs : List Event)
    (hq : ∀ e ∈ evs, e.quietBefore tw = true) :
    (run (onWrite (frame s t) tw st) evs).duty0 = (onWrite (frame s t) tw st).duty0 ∧
    (run (onWrite (frame s t) tw st) evs).duty1 = (onWrite (frame s t) tw st).duty1 ∧
    (IsInt32 s → (run (onWrite (frame s t) tw st) evs).duty0 = usToDuty (clamp s)) ∧
    (IsInt32 t → (run (onWrite (frame s t) tw st) evs).duty1 = usToDuty (clamp t)) ∧
    ∀ (s0 : State) (tBat tStamp tCmd : Nat) (raw : Int),
      ((loop tBat tStamp tCmd raw s0).duty0 ≠ s0.duty0 ∨
        (loop tBat tStamp tCmd raw s0).duty1 ≠ s0.duty1) →
      500 < u32sub tCmd s0.lastCmd := by
  obtain ⟨r0, r1⟩ := run_quiet tw evs (onWrite (frame s t) tw st) hq (by rw [onWrite_frame])
  refine ⟨r0, r1, ?_, ?_, ?_⟩
  · intro h
    rw [r0, onWrite_frame]
    show usToDuty (constrain (toInt32 s) 1000 2000) = usToDuty (clamp s)
    rw [constrain_toInt32 h]
  · intro h
    rw [r1, onWrite_frame]
    show usToDuty (constrain (toInt32 t) 1000 2000) = usToDuty (clamp t)
    rw [constrain_toInt32 h]
  · intro s0 tBat tStamp tCmd raw hne
    by_contra hc
    have := loop_idle_outputs tBat tStamp tCmd raw s0 hc
    rcases hne with h | h
    · exact h this.1
    · exact h this.2

/-- A frame at 10 000 ms followed by iterations at 10 010 ms and 10 500 ms. -/
theorem C14_active_reflects_frame_witness :
    (run (onWrite (frame 1600 1400) 10000 (setup (boot 0 0)))
      [Event.tick 10010 10010 10010 2859, Event.tick 10500 10500 10500 2859]).duty0 =
      usToDuty (clamp 1600) ∧
    (run (onWrite (frame 1600 1400) 10000 (setup (boot 0 0)))
      [Event.tick 10010 10010 10010 2859, Event.tick 10500 10500 10500 2859]).duty1 =
      usToDuty (clamp 1400) :=
  ⟨(C14_active_reflects_frame 1600 1400 10000 (setup (boot 0 0))
      [Event.tick 10010 10010 10010 2859, Event.tick 10500 10500 10500 2859]
      (by decide)).2.2.1 ⟨by decide, by decide⟩,
    (C14_active_reflects_frame 1600 1400 10000 (setup (boot 0 0))
      [Event.tick 10010 10010 10010 2859, Event.tick 10500 10500 10500 2859]
      (by decide)).2.2.2.1 ⟨by decide, by decide⟩⟩

/-- Claim C15: a main-loop iteration, whether or not the failsafe fires, leaves `lastCmd` and
`deviceConnected` unchanged. -/
theorem C15_tick_keeps_timestamp (st : State) (tBat tStamp tCmd : Nat) (raw : Int) :
    (loop tBat tStamp tCmd raw st).lastCmd = st.lastCmd ∧
    (loop tBat tStamp tCmd raw st).deviceConnected = st.deviceConnected ∧
    (loopFailsafe tCmd st).lastCmd = st.lastCmd ∧
    (loopFailsafe tCmd st).deviceConnected = st.deviceConnected :=
  ⟨(loop_lastCmd tBat tStamp tCmd raw st).1, (loop_lastCmd tBat tStamp tCmd raw st).2,
    (loopFailsafe_lastCmd tCmd st).1, (loopFailsafe_lastCmd tCmd st).2⟩

/-- Claim C16: in a state whose two channels are already at `usToDuty 1500`, a main-loop
iteration in which the failsafe fires leaves the PWM outputs unchanged; and after the failsafe
has fired, a second failsafe step, at the same or a later clock reading, changes nothing. -/
theorem C16_failsafe_idempotent (st : State) (tBat tStamp tCmd t2 : Nat) (raw : Int)
    (h0 : st.duty0 = usToDuty 1500) (h1 : st.duty1 = usToDuty 1500)
    (hf : 500 < u32sub tCmd st.lastCmd) :
    (loop tBat tStamp tCmd raw st).duty0 = st.duty0 ∧
    (loop tBat tStamp tCmd raw st).duty1 = st.duty1 ∧
    loopFailsafe tCmd st = st ∧
    ∀ s0 : State, 500 < u32sub tCmd s0.lastCmd →
      loopFailsafe tCmd (loopFailsafe tCmd s0) = loopFailsafe tCmd s0 ∧
      loopFailsafe t2 (loopFailsafe tCmd s0) = loopFailsafe tCmd s0 := by
  have c3 := loop_fires_outputs tBat tStamp tCmd raw st hf
  refine ⟨c3.1.trans h0.symm, c3.2.trans h1.symm, ?_, ?_⟩
  · rw [loopFailsafe_fires _ _ hf]
    cases st
    simp only at h0 h1
    simp [h0, h1]
  · intro s0 hs
    have key : ∀ t : Nat, loopFailsafe t (loopFailsafe tCmd s0) = loopFailsafe tCmd s0 := by
      intro t
      rw [loopFailsafe_fires _ _ hs]
      unfold loopFailsafe
      split_ifs <;> simp [ledcWrite]
    exact ⟨key tCmd, key t2⟩

/-- In the state after `setup` an iteration at 2000 ms fires the failsafe and changes nothing. -/
theorem C16_failsafe_idempotent_witness :
    (loop 2000 2000 2000 2859 (setup (boot 0 0))).duty0 = (setup (boot 0 0)).duty0 ∧
    (loop 2000 2000 2000 2859 (setup (boot 0 0))).duty1 = (setup (boot 0 0)).duty1 ∧
    loopFailsafe 2000 (setup (boot 0 0)) = setup (boot 0 0) :=
  ⟨(C16_failsafe_idempotent (setup (boot 0 0)) 2000 2000 2000 2010 2859 rfl rfl (by decide)).1,
    (C16_failsafe_idempotent (setup (boot 0 0)) 2000 2000 2000 2010 2859 rfl rfl (by decide)).2.1,
    (C16_failsafe_idempotent (setup (boot 0 0)) 2000 2000 2000 2010 2859 rfl rfl
      (by decide)).2.2.1⟩

/-- Claim C17: `onConnect` sets `deviceConnected` to true and `onDisconnect` sets it to false;
both leave the PWM outputs, `lastCmd` and the telemetry state unchanged.  A disconnect does not
alter what the next main-loop iteration does to the outputs: they stay when the clock is within
500 ms of `lastCmd` and become neutral only when the staleness test fires. -/
theorem C17_link_events (st : State) :
    (onConnect st).deviceConnected = true ∧
    (onDisconnect st).deviceConnected = false ∧
    ((onConnect st).duty0 = st.duty0 ∧ (onConnect st).duty1 = st.duty1 ∧
      (onConnect st).lastCmd = st.lastCmd) ∧
    ((onDisconnect st).duty0 = st.duty0 ∧ (onDisconnect st).duty1 = st.duty1 ∧
      (onDisconnect st).lastCmd = st.lastCmd) ∧
    onConnect st = { st with deviceConnected := true } ∧
    ((onDisconnect st).lastBat = st.lastBat ∧ (onDisconnect st).batValue = st.batValue ∧
      (onDisconnect st).notifyCount = st.notifyCount ∧
      (onDisconnect st).adcReads = st.adcReads) ∧
    (∀ (tBat tStamp tCmd : Nat) (raw : Int), ¬ 500 < u32sub tCmd st.lastCmd →
      (loop tBat tStamp tCmd raw (onDisconnect st)).duty0 = st.duty0 ∧
      (loop tBat tStamp tCmd raw (onDisconnect st)).duty1 = st.duty1) ∧
    (∀ (tBat tStamp tCmd : Nat) (raw : Int), 500 < u32sub tCmd st.lastCmd →
      (loop tBat tStamp tCmd raw (onDisconnect st)).duty0 = usToDuty 1500 ∧
      (loop tBat tStamp tCmd raw (onDisconnect st)).duty1 = usToDuty 1500) := by
  refine ⟨rfl, rfl, ⟨rfl, rfl, rfl⟩, ⟨rfl, rfl, rfl⟩, rfl, ⟨rfl, rfl, rfl, rfl⟩, ?_, ?_⟩
  · intro tBat tStamp tCmd raw h
    exact loop_idle_outputs tBat tStamp tCmd raw (onDisconnect st) h
  · intro tBat tStamp tCmd raw h
    exact loop_fires_outputs tBat tStamp tCmd raw (onDisconnect st) h

/-! ### Range of the duty values -/

theorem usToDuty_range (us : Int) (h1 : 1000 ≤ us) (h2 : us ≤ 2000) :
    819 ≤ usToDuty us ∧ usToDuty us ≤ 1638 := by
  obtain ⟨n, rfl⟩ := Int.eq_ofNat_of_zero_le (show (0 : Int) ≤ us by omega)
  rw [usToDuty_floor n (by omega) (by omega)]
  omega

theorem usToDuty_mono (a b : Int) (h1 : 1000 ≤ a) (hab : a ≤ b) (h2 : b ≤ 2000) :
    usToDuty a ≤ usToDuty b := by
  obtain ⟨m, rfl⟩ := Int.eq_ofNat_of_zero_le (show (0 : Int) ≤ a by omega)
  obtain ⟨n, rfl⟩ := Int.eq_ofNat_of_zero_le (show (0 : Int) ≤ b by omega)
  rw [usToDuty_floor m (by omega) (by omega), usToDuty_floor n (by omega) (by omega)]
  omega

theorem constrain_range (x : Int) :
    1000 ≤ constrain x 1000 2000 ∧ constrain x 1000 2000 ≤ 2000 := by
  unfold constrain
  split_ifs <;> omega

/-- What a write can do: nothing, or set both duties from constrained pulse widths. -/
theorem onWrite_cases (value : List Char) (now : Nat) (st : State) :
    onWrite value now st = st ∨
    ∃ s t : Int, onWrite value now st =
      { st with duty0 := usToDuty (constrain s 1000 2000),
                duty1 := usToDuty (constrain t 1000 2000), lastCmd := now } := by
  unfold onWrite
  by_cases hs : startsWith (trim (cString value)) ['S', ':'] = true
  · cases hp : sscanfCmd (trim (cString value)) with
    | none =>
      left
      simp [hs, hp]
    | some p =>
      right
      refine ⟨p.1, p.2, ?_⟩
      simp [hs, hp, ledcWrite]
  · left
    simp [hs]

theorem step_duty_range (st : State) (e : Event)
    (h : (819 ≤ st.duty0 ∧ st.duty0 ≤ 1638) ∧ (819 ≤ st.duty1 ∧ st.duty1 ≤ 1638)) :
    (819 ≤ (step st e).duty0 ∧ (step st e).duty0 ≤ 1638) ∧
      (819 ≤ (step st e).duty1 ∧ (step st e).duty1 ≤ 1638) := by
  have hn := usToDuty_range 1500 (by norm_num) (by norm_num)
  cases e with
  | connect => exact h
  | disconnect => exact h
  | write value now =>
    rcases onWrite_cases value now st with hw | ⟨s, t, hw⟩
    · simp only [step, hw]
      exact h
    · simp only [step, hw]
      exact ⟨usToDuty_range _ (constrain_range s).1 (constrain_range s).2,
        usToDuty_range _ (constrain_range t).1 (constrain_range t).2⟩
  | tick tBat tStamp tCmd raw =>
    simp only [step]
    by_cases hf : 500 < u32sub tCmd st.lastCmd
    · obtain ⟨a, b⟩ := loop_fires_outputs tBat tStamp tCmd raw st hf
      rw [a, b]
      exact ⟨hn, hn⟩
    · obtain ⟨a, b⟩ := loop_idle_outputs tBat tStamp tCmd raw st hf
      rw [a, b]
      exact h

theorem run_duty_range (evs : List Event) (st : State)
    (h : (819 ≤ st.duty0 ∧ st.duty0 ≤ 1638) ∧ (819 ≤ st.duty1 ∧ st.duty1 ≤ 1638)) :
    (819 ≤ (run st evs).duty0 ∧ (run st evs).duty0 ≤ 1638) ∧
      (819 ≤ (run st evs).duty1 ∧ (run st evs).duty1 ≤ 1638) := by
  induction evs generalizing st with
  | nil => exact h
  | cons e evs ih => exact ih (step st e) (step_duty_range st e h)

/-- Claim C18: after `setup` and any sequence of events, both duty registers hold a value
between `usToDuty 1000 = 819` and `usToDuty 2000 = 1638`, hence at most 16383: every value
written is `usToDuty` of a pulse width in `[1000, 2000]`, and `usToDuty` is non-decreasing
there. -/
theorem C18_duty_bounds (d0 d1 : Nat) (evs : List Event) :
    (819 ≤ (run (setup (boot d0 d1)) evs).duty0 ∧ (run (setup (boot d0 d1)) evs).duty0 ≤ 1638) ∧
    (819 ≤ (run (setup (boot d0 d1)) evs).duty1 ∧ (run (setup (boot d0 d1)) evs).duty1 ≤ 1638) ∧
    (run (setup (boot d0 d1)) evs).duty0 ≤ 16383 ∧
    (run (setup (boot d0 d1)) evs).duty1 ≤ 16383 ∧
    (∀ s : Int, 819 ≤ usToDuty (constrain s 1000 2000) ∧
      usToDuty (constrain s 1000 2000) ≤ 1638) ∧
    (819 ≤ usToDuty 1500 ∧ usToDuty 1500 ≤ 1638) ∧
    (∀ a b : Int, 1000 ≤ a → a ≤ b → b ≤ 2000 → usToDuty a ≤ usToDuty b) ∧
    usToDuty 1000 = 819 ∧ usToDuty 2000 = 1638 := by
  have hn := usToDuty_range 1500 (by norm_num) (by norm_num)
  have hr := run_duty_range evs (setup (boot d0 d1)) ⟨hn, hn⟩
  refine ⟨hr.1, hr.2, by omega, by omega, ?_, hn, ?_, by decide!, by decide!⟩
  · intro s
    exact usToDuty_range _ (constrain_range s).1 (constrain_range s).2
  · intro a b h1 hab h2
    exact usToDuty_mono a b h1 hab h2

theorem u32sub_add (last d : Nat) (h1 : last < 2 ^ 32) (h2 : d < 2 ^ 32) :
    u32sub ((last + d) % 2 ^ 32) last = d := by
  unfold u32sub
  norm_num
  omega

/-- Claim C19: for every `lastCmd` and every true elapsed time `d` below `2^32` ms, with the
clock reading `now = (lastCmd + d) mod 2^32`, the unsigned difference `now - lastCmd` is `d`, so
the failsafe fires exactly when `d > 500`, also when `now` has wrapped below `lastCmd`. -/
theorem C19_rollover (st : State) (d : Nat) (h1 : st.lastCmd < 2 ^ 32) (h2 : d < 2 ^ 32) :
    u32sub ((st.lastCmd + d) % 2 ^ 32) st.lastCmd = d ∧
    (500 < d → loopFailsafe ((st.lastCmd + d) % 2 ^ 32) st =
      { st with duty0 := usToDuty 1500, duty1 := usToDuty 1500 }) ∧
    (d ≤ 500 → loopFailsafe ((st.lastCmd + d) % 2 ^ 32) st = st) := by
  have e := u32sub_add st.lastCmd d h1 h2
  refine ⟨e, ?_, ?_⟩
  · intro h
    exact loopFailsafe_fires _ _ (by rw [e]; exact h)
  · intro h
    exact loopFailsafe_idle _ _ (by rw [e]; omega)

/-- A command stamped 100 ms before the clock wraps, checked 600 ms and 400 ms later. -/
theorem C19_rollover_witness :
    (onWrite (frame 1600 1400) (2 ^ 32 - 100) (setup (boot 0 0))).lastCmd < 2 ^ 32 ∧
    (2 ^ 32 - 100 + 600) % 2 ^ 32 = 500 ∧
    u32sub 500 (2 ^ 32 - 100) = 600 ∧
    (loopFailsafe 500 (onWrite (frame 1600 1400) (2 ^ 32 - 100) (setup (boot 0 0)))).duty0 =
      usToDuty 1500 := by
  have hl : (onWrite (frame 1600 1400) (2 ^ 32 - 100) (setup (boot 0 0))).lastCmd =
      2 ^ 32 - 100 := by rw [onWrite_frame]
  have h := C19_rollover (onWrite (frame 1600 1400) (2 ^ 32 - 100) (setup (boot 0 0))) 600
    (by rw [hl]; decide) (by decide)
  rw [hl] at h
  refine ⟨by rw [hl]; decide, by decide, by decide, ?_⟩
  have h2 := h.2.1 (by decide)
  have e : (2 ^ 32 - 100 + 600) % 2 ^ 32 = 500 := by decide
  simp only [e] at h2
  rw [h2]

end RcCar
